import Mathlib

set_option maxRecDepth 40000

/-!
Verification of the Edvanta server's AI-response normalization and JSON
recovery layer, its quiz generation and scoring endpoints, its resume
analysis pipeline and its roadmap store, against a shallow embedding of
the Python sources (`app/utils/ai_utils.py`, `app/utils/quizzes_utils.py`,
`app/routes/quizzes.py`, `app/routes/resume.py`, `app/routes/roadmap.py`).

Strings are `List Char`. Python's `json.loads` is embedded as a fuel-based
recursive-descent function over the exact grammar CPython's strict decoder
accepts, with numbers and string bodies kept in source (undecoded) form so
that equality of parses is syntactic. Machine floats are modelled as exact
rationals where they occur (score coercion, percentage rounding), with
Python's banker's rounding made explicit. Dictionaries are association
lists with Python's in-place-update/append-on-new insertion order.
-/

/-! ## JSON values -/

inductive Json where
  | null : Json
  | boolean (b : Bool) : Json
  | num (lit : List Char) : Json
  | str (raw : List Char) : Json
  | arr (elems : List Json) : Json
  | obj (members : List (List Char × Json)) : Json

mutual

def Json.beq : Json → Json → Bool
  | .null, .null => true
  | .boolean a, .boolean b => a == b
  | .num a, .num b => a == b
  | .str a, .str b => a == b
  | .arr a, .arr b => Json.beqList a b
  | .obj a, .obj b => Json.beqKvs a b
  | _, _ => false

def Json.beqList : List Json → List Json → Bool
  | [], [] => true
  | x :: xs, y :: ys => Json.beq x y && Json.beqList xs ys
  | _, _ => false

def Json.beqKvs : List (List Char × Json) → List (List Char × Json) → Bool
  | [], [] => true
  | (k, v) :: xs, (l, w) :: ys => k == l && Json.beq v w && Json.beqKvs xs ys
  | _, _ => false

end

mutual

theorem Json.beq_iff_eq : ∀ a b : Json, Json.beq a b = true ↔ a = b
  | .null, .null => by simp [Json.beq]
  | .boolean _, .boolean _ => by simp [Json.beq]
  | .num _, .num _ => by simp [Json.beq]
  | .str _, .str _ => by simp [Json.beq]
  | .arr x, .arr y => by simp [Json.beq, Json.beqList_iff_eq x y]
  | .obj x, .obj y => by simp [Json.beq, Json.beqKvs_iff_eq x y]
  | .null, .boolean _ | .null, .num _ | .null, .str _ | .null, .arr _ | .null, .obj _
  | .boolean _, .null | .boolean _, .num _ | .boolean _, .str _ | .boolean _, .arr _
  | .boolean _, .obj _
  | .num _, .null | .num _, .boolean _ | .num _, .str _ | .num _, .arr _ | .num _, .obj _
  | .str _, .null | .str _, .boolean _ | .str _, .num _ | .str _, .arr _ | .str _, .obj _
  | .arr _, .null | .arr _, .boolean _ | .arr _, .num _ | .arr _, .str _ | .arr _, .obj _
  | .obj _, .null | .obj _, .boolean _ | .obj _, .num _ | .obj _, .str _ | .obj _, .arr _ =>
    by simp [Json.beq]

theorem Json.beqList_iff_eq : ∀ xs ys : List Json, Json.beqList xs ys = true ↔ xs = ys
  | [], [] => by simp [Json.beqList]
  | x :: xs, y :: ys => by
    simp [Json.beqList, Json.beq_iff_eq x y, Json.beqList_iff_eq xs ys]
  | [], _ :: _ => by simp [Json.beqList]
  | _ :: _, [] => by simp [Json.beqList]

theorem Json.beqKvs_iff_eq :
    ∀ xs ys : List (List Char × Json), Json.beqKvs xs ys = true ↔ xs = ys
  | [], [] => by simp [Json.beqKvs]
  | (k, v) :: xs, (l, w) :: ys => by
    simp [Json.beqKvs, Json.beq_iff_eq v w, Json.beqKvs_iff_eq xs ys, and_assoc]
  | [], _ :: _ => by simp [Json.beqKvs]
  | _ :: _, [] => by simp [Json.beqKvs]

end

instance : DecidableEq Json := fun a b =>
  decidable_of_iff (Json.beq a b = true) (Json.beq_iff_eq a b)

/-! ## Whitespace and parsing primitives -/

def isJsonWs (c : Char) : Bool :=
  c = ' ' || c = '\t' || c = '\n' || c = '\r'

def skipWs (cs : List Char) : List Char := cs.dropWhile isJsonWs

def jsonDigit (c : Char) : Bool := '0' ≤ c && c ≤ '9'

def jsonHex (c : Char) : Bool :=
  jsonDigit c || ('a' ≤ c && c ≤ 'f') || ('A' ≤ c && c ≤ 'F')

/-- Integer part of a JSON number after the optional sign: a lone 0, or a
nonzero digit followed by digits, as in the CPython NUMBER_RE regex. -/
def jsonIntPart : List Char → Option (List Char × List Char)
  | [] => none
  | c :: rest =>
    if c = '0' then some (['0'], rest)
    else if jsonDigit c then
      some (c :: rest.takeWhile jsonDigit, rest.dropWhile jsonDigit)
    else none

/-- Optional fraction part: a dot followed by one or more digits, as in the
second group of NUMBER_RE; anything else leaves the input untouched. -/
def jsonFracPart : List Char → List Char × List Char
  | [] => ([], [])
  | c :: rest =>
    if c = '.' then
      match rest with
      | [] => ([], c :: rest)
      | d :: rest2 =>
        if jsonDigit d then
          (c :: d :: rest2.takeWhile jsonDigit, rest2.dropWhile jsonDigit)
        else ([], c :: rest)
    else ([], c :: rest)

/-- Optional exponent part: e or E, an optional sign, one or more digits, as
in the third group of NUMBER_RE; anything else leaves the input untouched. -/
def jsonExpPart : List Char → List Char × List Char
  | [] => ([], [])
  | e :: rest =>
    if e = 'e' || e = 'E' then
      match rest with
      | [] => ([], e :: rest)
      | s :: rest2 =>
        if s = '+' || s = '-' then
          match rest2 with
          | [] => ([], e :: rest)
          | d :: rest3 =>
            if jsonDigit d then
              (e :: s :: d :: rest3.takeWhile jsonDigit, rest3.dropWhile jsonDigit)
            else ([], e :: rest)
        else if jsonDigit s then
          (e :: s :: rest2.takeWhile jsonDigit, rest2.dropWhile jsonDigit)
        else ([], e :: rest)
    else ([], e :: rest)

/-- A JSON number literal, kept as the matched source characters, mirroring
the regex match CPython's scanner performs before converting to int/float. -/
def jsonNumber : List Char → Option (List Char × List Char)
  | [] => none
  | c :: rest =>
    if c = '-' then
      match jsonIntPart rest with
      | some (ip, r1) =>
        let (fp, r2) := jsonFracPart r1
        let (ep, r3) := jsonExpPart r2
        some ('-' :: ip ++ fp ++ ep, r3)
      | none => none
    else
      match jsonIntPart (c :: rest) with
      | some (ip, r1) =>
        let (fp, r2) := jsonFracPart r1
        let (ep, r3) := jsonExpPart r2
        some (ip ++ fp ++ ep, r3)
      | none => none

/-- Python dict insertion: replace the value in place if the key is present,
otherwise append the binding at the end. -/
def dictInsert (acc : List (List Char × Json)) (k : List Char) (v : Json) :
    List (List Char × Json) :=
  match acc with
  | [] => [(k, v)]
  | (k1, v1) :: rest =>
    if k1 = k then (k1, v) :: rest else (k1, v1) :: dictInsert rest k v

/-- Folding up the raw member list the way json.loads builds its dict:
later duplicates overwrite earlier values, first position is kept. -/
def dictNorm (kvs : List (List Char × Json)) : List (List Char × Json) :=
  kvs.foldl (fun acc kv => dictInsert acc kv.1 kv.2) []

mutual

/-- One string body step as in the CPython decoder after the opening quote:
a closing quote ends the string, a backslash starts one of the nine escapes
(with u taking four hex digits), and a raw control character below 0x20 is
rejected (strict mode). Content is kept in source (undecoded) form. -/
def parseStr : Nat → List Char → Option (List Char × List Char)
  | 0, _ => none
  | _ + 1, [] => none
  | f + 1, c :: rest =>
    if c = '"' then some ([], rest)
    else if c = '\\' then
      match rest with
      | [] => none
      | e :: rest2 =>
        if e = 'u' then
          match rest2 with
          | h1 :: h2 :: h3 :: h4 :: rest3 =>
            if jsonHex h1 && jsonHex h2 && jsonHex h3 && jsonHex h4 then
              (parseStr f rest3).map fun p =>
                ('\\' :: 'u' :: h1 :: h2 :: h3 :: h4 :: p.1, p.2)
            else none
          | _ => none
        else if e = '"' || e = '\\' || e = '/' || e = 'b' || e = 'f' ||
            e = 'n' || e = 'r' || e = 't' then
          (parseStr f rest2).map fun p => ('\\' :: e :: p.1, p.2)
        else none
    else if c.toNat < 32 then none
    else (parseStr f rest).map fun p => (c :: p.1, p.2)

/-- One JSON value, dispatched on the first character exactly as the CPython
scanner does; leading whitespace must already have been skipped. -/
def parseVal : Nat → List Char → Option (Json × List Char)
  | 0, _ => none
  | _ + 1, [] => none
  | f + 1, c :: rest =>
    if c = '{' then
      match skipWs rest with
      | [] => none
      | d :: r2 =>
        if d = '}' then some (.obj [], r2)
        else (parseMembers f (d :: r2)).map fun p => (Json.obj (dictNorm p.1), p.2)
    else if c = '[' then
      match skipWs rest with
      | [] => none
      | d :: r2 =>
        if d = ']' then some (.arr [], r2)
        else (parseElems f (d :: r2)).map fun p => (Json.arr p.1, p.2)
    else if c = '"' then
      (parseStr f rest).map fun p => (Json.str p.1, p.2)
    else if c = 't' then
      match rest with
      | 'r' :: 'u' :: 'e' :: r => some (.boolean true, r)
      | _ => none
    else if c = 'f' then
      match rest with
      | 'a' :: 'l' :: 's' :: 'e' :: r => some (.boolean false, r)
      | _ => none
    else if c = 'n' then
      match rest with
      | 'u' :: 'l' :: 'l' :: r => some (.null, r)
      | _ => none
    else if c = 'N' then
      match rest with
      | 'a' :: 'N' :: r => some (.num ['N', 'a', 'N'], r)
      | _ => none
    else if c = 'I' then
      match rest with
      | 'n' :: 'f' :: 'i' :: 'n' :: 'i' :: 't' :: 'y' :: r =>
        some (.num ['I', 'n', 'f', 'i', 'n', 'i', 't', 'y'], r)
      | _ => none
    else
      match jsonNumber (c :: rest) with
      | some (lit, r) => some (.num lit, r)
      | none =>
        match c :: rest with
        | '-' :: 'I' :: 'n' :: 'f' :: 'i' :: 'n' :: 'i' :: 't' :: 'y' :: r =>
          some (.num ['-', 'I', 'n', 'f', 'i', 'n', 'i', 't', 'y'], r)
        | _ => none

/-- The members of a nonempty object: key string, colon, value, then either a
comma and more members or the closing brace. -/
def parseMembers : Nat → List Char → Option (List (List Char × Json) × List Char)
  | 0, _ => none
  | _ + 1, [] => none
  | f + 1, c :: rest =>
    if c = '"' then
      match parseStr f rest with
      | some (key, r1) =>
        match skipWs r1 with
        | [] => none
        | d :: r2 =>
          if d = ':' then
            match parseVal f (skipWs r2) with
            | some (v, r3) =>
              match skipWs r3 with
              | [] => none
              | d2 :: r4 =>
                if d2 = ',' then
                  (parseMembers f (skipWs r4)).map fun p => ((key, v) :: p.1, p.2)
                else if d2 = '}' then some ([(key, v)], r4)
                else none
            | none => none
          else none
      | none => none
    else none

/-- The elements of a nonempty array: a value, then either a comma and more
elements or the closing bracket. -/
def parseElems : Nat → List Char → Option (List Json × List Char)
  | 0, _ => none
  | f + 1, cs =>
    match parseVal f cs with
    | some (v, r1) =>
      match skipWs r1 with
      | [] => none
      | d :: r2 =>
        if d = ',' then (parseElems f (skipWs r2)).map fun p => (v :: p.1, p.2)
        else if d = ']' then some ([v], r2)
        else none
    | none => none

end

/-- Model of Python json.loads: skip surrounding whitespace, parse one value,
and require nothing but whitespace to remain. The fuel 2*length+2 always
suffices because every two nested calls consume at least one character. -/
def jsonLoads (cs : List Char) : Option Json :=
  match parseVal (2 * cs.length + 2) (skipWs cs) with
  | some (v, rest) => if skipWs rest = [] then some v else none
  | none => none

/-! ## Whitespace and scanning lemmas -/

theorem skipWs_cons_neg {c : Char} (t : List Char) (h : isJsonWs c = false) :
    skipWs (c :: t) = c :: t :=
  List.dropWhile_cons_of_neg (by simp [h])

theorem skipWs_append_ws {a : List Char} (b : List Char) (h : ∀ x ∈ a, isJsonWs x) :
    skipWs (a ++ b) = skipWs b := by
  induction a with
  | nil => rfl
  | cons c t ih =>
    have hc : isJsonWs c = true := h c (by simp)
    simp only [List.cons_append, skipWs, List.dropWhile_cons, hc, if_true]
    exact ih fun x hx => h x (by simp [hx])

theorem skipWs_ws_cons {w t : List Char} {c : Char} (hw : ∀ x ∈ w, isJsonWs x)
    (hc : isJsonWs c = false) : skipWs (w ++ c :: t) = c :: t := by
  rw [skipWs_append_ws _ hw, skipWs_cons_neg _ hc]

theorem skipWs_decomp (cs : List Char) :
    ∃ w, cs = w ++ skipWs cs ∧ ∀ x ∈ w, isJsonWs x :=
  ⟨cs.takeWhile isJsonWs, (List.takeWhile_append_dropWhile isJsonWs cs).symm,
    fun _ hx => List.mem_takeWhile_imp hx⟩

theorem allWs_of_skipWs_nil {cs : List Char} (h : skipWs cs = []) :
    ∀ x ∈ cs, isJsonWs x :=
  List.dropWhile_eq_nil_iff.mp h

theorem takeWhile_all_append {p : Char → Bool} {u r : List Char}
    (hds : ∀ x ∈ u, p x) (hr : r = [] ∨ ∃ c t, r = c :: t ∧ p c = false) :
    (u ++ r).takeWhile p = u ∧ (u ++ r).dropWhile p = r := by
  induction u with
  | nil =>
    rcases hr with rfl | ⟨c, t, rfl, hc⟩
    · simp
    · simp [List.takeWhile_cons, List.dropWhile_cons, hc]
  | cons d ds ih =>
    have hd : p d = true := hds d (by simp)
    have := ih (fun x hx => hds x (by simp [hx]))
    simp [List.takeWhile_cons, List.dropWhile_cons, hd, this.1, this.2]

/-- Two characters differ whenever a Boolean character class separates them;
instantiated with concrete right-hand characters via decide. -/
theorem ne_of_class {p : Char → Bool} {c x : Char} (h : p c = true) (hx : p x = false) :
    c ≠ x := fun e => by subst e; rw [h] at hx; exact Bool.noConfusion hx

theorem isJsonWs_elim {c : Char} (h : isJsonWs c = true) :
    c = ' ' ∨ c = '\t' ∨ c = '\n' ∨ c = '\r' := by
  simp only [isJsonWs, Bool.or_eq_true, decide_eq_true_eq] at h
  tauto

theorem jsonDigit_not_ws {c : Char} (h : jsonDigit c = true) : isJsonWs c = false := by
  cases hw : isJsonWs c with
  | false => rfl
  | true =>
    rcases isJsonWs_elim hw with rfl | rfl | rfl | rfl <;> exact absurd h (by decide)

theorem ws_not_digit {c : Char} (h : isJsonWs c = true) : jsonDigit c = false := by
  rcases isJsonWs_elim h with rfl | rfl | rfl | rfl <;> decide

/-- Characters that may legally follow a consumed prefix in the places the
locality lemma re-runs the parser: the end of input, whitespace, or one of
the three delimiters a container production inspects next. -/
def safeCont : List Char → Bool
  | [] => true
  | c :: _ => isJsonWs c || c = ',' || c = '}' || c = ']'

theorem safeCont_not_digit {r : List Char} (h : safeCont r = true) :
    r = [] ∨ ∃ c t, r = c :: t ∧ jsonDigit c = false := by
  cases r with
  | nil => exact Or.inl rfl
  | cons c t =>
    refine Or.inr ⟨c, t, rfl, ?_⟩
    simp only [safeCont, Bool.or_eq_true, decide_eq_true_eq] at h
    rcases h with ((hw | rfl) | rfl) | rfl
    · exact ws_not_digit hw
    all_goals decide

theorem head_dropWhile_false {p : Char → Bool} :
    ∀ {l t : List Char} {c : Char}, l.dropWhile p = c :: t → p c = false := by
  intro l
  induction l with
  | nil => intro t c h; exact absurd h (by simp)
  | cons x xs ih =>
    intro t c h
    rw [List.dropWhile_cons] at h
    split at h
    · exact ih h
    · cases h; simpa [Bool.not_eq_true] using ‹¬ p x = true›

/-- What a successful integer-part scan tells us: the consumed prefix, that
it is all digits, and that it rescans identically before any non-digit. -/
theorem jsonIntPart_spec {cs ip r : List Char} (h : jsonIntPart cs = some (ip, r)) :
    cs = ip ++ r ∧ ip ≠ [] ∧ (∀ x ∈ ip, jsonDigit x = true) ∧
    ∀ r2, (r2 = [] ∨ ∃ c t, r2 = c :: t ∧ jsonDigit c = false) →
      jsonIntPart (ip ++ r2) = some (ip, r2) := by
  cases cs with
  | nil => exact absurd h (by simp [jsonIntPart])
  | cons c rest =>
    simp only [jsonIntPart] at h
    split at h
    · rename_i hc0
      cases h
      subst hc0
      refine ⟨rfl, by simp, by simp; decide, fun r2 _ => by simp [jsonIntPart]⟩
    · split at h
      · rename_i hc0 hcd
        cases h
        constructor
        · simpa using (List.takeWhile_append_dropWhile jsonDigit rest).symm
        refine ⟨by simp, ?_, ?_⟩
        · intro x hx
          rcases List.mem_cons.mp hx with rfl | hx
          · exact hcd
          · exact List.mem_takeWhile_imp hx
        · intro r2 hr2
          have hds : ∀ x ∈ rest.takeWhile jsonDigit, jsonDigit x = true :=
            fun _ hx => List.mem_takeWhile_imp hx
          have htw := takeWhile_all_append (p := jsonDigit) hds hr2
          simp [jsonIntPart, hc0, hcd, htw.1, htw.2]
      · exact absurd h (by simp)

/-- Case analysis of a fraction-part scan: either nothing was consumed and
the input is returned unchanged, or a dot plus digits was consumed,
rescanning identically before any non-digit. -/
theorem jsonFracPart_spec {cs fp r : List Char} (h : jsonFracPart cs = (fp, r)) :
    (fp = [] ∧ r = cs) ∨
    (∃ d ds, fp = '.' :: d :: ds ∧ jsonDigit d = true ∧
      (∀ x ∈ ds, jsonDigit x = true) ∧ cs = fp ++ r ∧
      (r = [] ∨ ∃ c t, r = c :: t ∧ jsonDigit c = false) ∧
      ∀ r2, (r2 = [] ∨ ∃ c t, r2 = c :: t ∧ jsonDigit c = false) →
        jsonFracPart (fp ++ r2) = (fp, r2)) := by
  cases cs with
  | nil => cases h; exact Or.inl ⟨rfl, rfl⟩
  | cons c rest =>
    simp only [jsonFracPart] at h
    split at h
    · rename_i hc
      subst hc
      cases rest with
      | nil => cases h; exact Or.inl ⟨rfl, rfl⟩
      | cons d rest2 =>
        simp only at h
        split at h
        · rename_i hd
          cases h
          refine Or.inr ⟨d, rest2.takeWhile jsonDigit, rfl, hd,
            fun _ hx => List.mem_takeWhile_imp hx, ?_, ?_, ?_⟩
          · simpa using (List.takeWhile_append_dropWhile jsonDigit rest2).symm
          · cases hdw : rest2.dropWhile jsonDigit with
            | nil => exact Or.inl rfl
            | cons c t => exact Or.inr ⟨c, t, rfl, head_dropWhile_false hdw⟩
          · intro r2 hr2
            have hds : ∀ x ∈ rest2.takeWhile jsonDigit, jsonDigit x = true :=
              fun _ hx => List.mem_takeWhile_imp hx
            have htw := takeWhile_all_append (p := jsonDigit) hds hr2
            simp [jsonFracPart, hd, htw.1, htw.2]
        · cases h; exact Or.inl ⟨rfl, rfl⟩
    · cases h; exact Or.inl ⟨rfl, rfl⟩

/-- Case analysis of an exponent-part scan, in the same form as the
fraction-part one; the consumed prefix records the optional sign. -/
theorem jsonExpPart_spec {cs ep r : List Char} (h : jsonExpPart cs = (ep, r)) :
    (ep = [] ∧ r = cs) ∨
    (∃ e sd ds, ep = e :: sd ++ ds ∧ (e = 'e' ∨ e = 'E') ∧ sd ≠ [] ∧
      (∀ x ∈ ds, jsonDigit x = true) ∧ cs = ep ++ r ∧
      (r = [] ∨ ∃ c t, r = c :: t ∧ jsonDigit c = false) ∧
      ∀ r2, (r2 = [] ∨ ∃ c t, r2 = c :: t ∧ jsonDigit c = false) →
        jsonExpPart (ep ++ r2) = (ep, r2)) := by
  cases cs with
  | nil => cases h; exact Or.inl ⟨rfl, rfl⟩
  | cons e rest =>
    simp only [jsonExpPart] at h
    split at h
    · rename_i he
      cases rest with
      | nil => cases h; exact Or.inl ⟨rfl, rfl⟩
      | cons s rest2 =>
        simp only at h
        split at h
        · rename_i hs
          cases rest2 with
          | nil => cases h; exact Or.inl ⟨rfl, rfl⟩
          | cons d rest3 =>
            simp only at h
            split at h
            · rename_i hd
              cases h
              refine Or.inr ⟨e, [s, d], rest3.takeWhile jsonDigit, by simp, ?_, by simp,
                fun _ hx => List.mem_takeWhile_imp hx, ?_, ?_, ?_⟩
              · simpa [decide_eq_true_eq] using he
              · simpa using (List.takeWhile_append_dropWhile jsonDigit rest3).symm
              · cases hdw : rest3.dropWhile jsonDigit with
                | nil => exact Or.inl rfl
                | cons c t => exact Or.inr ⟨c, t, rfl, head_dropWhile_false hdw⟩
              · intro r2 hr2
                have hds : ∀ x ∈ rest3.takeWhile jsonDigit, jsonDigit x = true :=
                  fun _ hx => List.mem_takeWhile_imp hx
                have htw := takeWhile_all_append (p := jsonDigit) hds hr2
                simp [jsonExpPart, he, hs, hd, htw.1, htw.2]
            · cases h; exact Or.inl ⟨rfl, rfl⟩
        · split at h
          · rename_i hs hd
            cases h
            refine Or.inr ⟨e, [s], rest2.takeWhile jsonDigit, by simp, ?_, by simp,
              fun _ hx => List.mem_takeWhile_imp hx, ?_, ?_, ?_⟩
            · simpa [decide_eq_true_eq] using he
            · simpa using (List.takeWhile_append_dropWhile jsonDigit rest2).symm
            · cases hdw : rest2.dropWhile jsonDigit with
              | nil => exact Or.inl rfl
              | cons c t => exact Or.inr ⟨c, t, rfl, head_dropWhile_false hdw⟩
            · intro r2 hr2
              have hds : ∀ x ∈ rest2.takeWhile jsonDigit, jsonDigit x = true :=
                fun _ hx => List.mem_takeWhile_imp hx
              have htw := takeWhile_all_append (p := jsonDigit) hds hr2
              have hsd : jsonDigit s = true := hd
              have hs1 : (s = '+') = False := by
                simp only [eq_iff_iff, iff_false]
                exact ne_of_class hsd (by decide)
              have hs2 : (s = '-') = False := by
                simp only [eq_iff_iff, iff_false]
                exact ne_of_class hsd (by decide)
              simp [jsonExpPart, he, hd, htw.1, htw.2, hs1, hs2]
          · cases h; exact Or.inl ⟨rfl, rfl⟩
    · cases h; exact Or.inl ⟨rfl, rfl⟩

theorem jsonFracPart_skip {cs : List Char}
    (h : cs = [] ∨ ∃ c t, cs = c :: t ∧ c ≠ '.') : jsonFracPart cs = ([], cs) := by
  rcases h with rfl | ⟨c, t, rfl, hc⟩
  · rfl
  · simp [jsonFracPart, hc]

theorem jsonExpPart_skip {cs : List Char}
    (h : cs = [] ∨ ∃ c t, cs = c :: t ∧ (c = 'e' || c = 'E') = false) :
    jsonExpPart cs = ([], cs) := by
  rcases h with rfl | ⟨c, t, rfl, hc⟩
  · rfl
  · simp only [jsonExpPart, hc, Bool.false_eq_true, if_false]

/-- A safe continuation is inert for every stage of the number scanner:
its head is not a digit, not a dot, and not an exponent marker. -/
theorem safeCont_number_inert {r : List Char} (h : safeCont r = true) :
    (r = [] ∨ ∃ c t, r = c :: t ∧ jsonDigit c = false) ∧
    jsonFracPart r = ([], r) ∧ jsonExpPart r = ([], r) := by
  refine ⟨safeCont_not_digit h, ?_, ?_⟩
  · refine jsonFracPart_skip ?_
    cases r with
    | nil => exact Or.inl rfl
    | cons c t =>
      refine Or.inr ⟨c, t, rfl, ?_⟩
      simp only [safeCont, Bool.or_eq_true, decide_eq_true_eq] at h
      rcases h with ((hw | rfl) | rfl) | rfl
      · rcases isJsonWs_elim hw with rfl | rfl | rfl | rfl <;> decide
      all_goals decide
  · refine jsonExpPart_skip ?_
    cases r with
    | nil => exact Or.inl rfl
    | cons c t =>
      refine Or.inr ⟨c, t, rfl, ?_⟩
      simp only [safeCont, Bool.or_eq_true, decide_eq_true_eq] at h
      rcases h with ((hw | rfl) | rfl) | rfl
      · rcases isJsonWs_elim hw with rfl | rfl | rfl | rfl <;> decide
      all_goals decide

/-- Joint behaviour of the three number-scanner stages: decomposition of the
input, the digit head of the integer part, and identical rescanning of every
stage in front of a safe continuation. -/
theorem jsonNumberTail_spec {cs ip r1 fp r2x ep r3 : List Char}
    (hip : jsonIntPart cs = some (ip, r1))
    (hfp : jsonFracPart r1 = (fp, r2x))
    (hep : jsonExpPart r2x = (ep, r3)) :
    cs = (ip ++ fp ++ ep) ++ r3 ∧
    (∃ c0 t0, ip = c0 :: t0 ∧ jsonDigit c0 = true) ∧
    ∀ r2, safeCont r2 = true →
      jsonIntPart (ip ++ (fp ++ ep ++ r2)) = some (ip, fp ++ ep ++ r2) ∧
      jsonFracPart (fp ++ ep ++ r2) = (fp, ep ++ r2) ∧
      jsonExpPart (ep ++ r2) = (ep, r2) := by
  obtain ⟨hdec, hipne, hipds, hipre⟩ := jsonIntPart_spec hip
  have hfr := jsonFracPart_spec hfp
  have hex := jsonExpPart_spec hep
  have hiphead : ∃ c0 t0, ip = c0 :: t0 ∧ jsonDigit c0 = true := by
    cases ip with
    | nil => exact absurd rfl hipne
    | cons c0 t0 => exact ⟨c0, t0, rfl, hipds c0 (by simp)⟩
  refine ⟨?_, hiphead, ?_⟩
  · rcases hfr with ⟨rfl, rfl⟩ | ⟨d, ds, rfl, _, _, hdec2, _, _⟩ <;>
      rcases hex with ⟨rfl, rfl⟩ | ⟨e, sd, ds2, rfl, _, _, _, hdec3, _, _⟩ <;>
      simp_all [List.append_assoc]
  intro r2 hr2
  obtain ⟨hr2nd, hr2fp, hr2ep⟩ := safeCont_number_inert hr2
  -- head descriptions of the fraction and exponent parts, for non-digit checks
  have hfpInfo : fp = [] ∨ ∃ t, fp = '.' :: t := by
    rcases hfr with ⟨rfl, _⟩ | ⟨d, ds, rfl, _, _, _, _, _⟩
    · exact Or.inl rfl
    · exact Or.inr ⟨d :: ds, rfl⟩
  have hepInfo : ep = [] ∨ ∃ e t, ep = e :: t ∧ (e = 'e' ∨ e = 'E') := by
    rcases hex with ⟨rfl, _⟩ | ⟨e, sd, ds2, rfl, he, _, _, _, _, _⟩
    · exact Or.inl rfl
    · exact Or.inr ⟨e, sd ++ ds2, rfl, he⟩
  -- the continuation seen by the integer part starts with a dot, an
  -- exponent marker, or a safe character: never a digit
  have hcont : ∀ X, (X = [] ∨ ∃ c t, X = c :: t ∧ jsonDigit c = false) →
      (fp ++ ep ++ X = [] ∨ ∃ c t, fp ++ ep ++ X = c :: t ∧ jsonDigit c = false) := by
    intro X hX
    rcases hfpInfo with rfl | ⟨t, rfl⟩
    · rcases hepInfo with rfl | ⟨e, t, rfl, he⟩
      · simpa using hX
      · exact Or.inr ⟨e, t ++ X, by simp, by rcases he with rfl | rfl <;> decide⟩
    · exact Or.inr ⟨'.', t ++ (ep ++ X), by simp, by decide⟩
  have hepCont : ∀ X, (X = [] ∨ ∃ c t, X = c :: t ∧ jsonDigit c = false) →
      (ep ++ X = [] ∨ ∃ c t, ep ++ X = c :: t ∧ jsonDigit c = false) := by
    intro X hX
    rcases hepInfo with rfl | ⟨e, t, rfl, he⟩
    · simpa using hX
    · exact Or.inr ⟨e, t ++ X, by simp, by rcases he with rfl | rfl <;> decide⟩
  refine ⟨by simpa [List.append_assoc] using hipre (fp ++ ep ++ r2) (hcont r2 hr2nd), ?_, ?_⟩
  · rcases hfr with ⟨rfl, hsame⟩ | ⟨d, ds, hfpeq, hd, hds, hdec2, hr1nd, hfpre⟩
    · -- no fraction part: the rescan must again consume nothing
      rcases hepInfo with rfl | ⟨e, t, rfl, he⟩
      · simpa using hr2fp
      · refine jsonFracPart_skip ?_
        exact Or.inr ⟨e, t ++ r2, by simp, by rcases he with rfl | rfl <;> decide⟩
    · simpa [hfpeq, List.append_assoc] using hfpre (ep ++ r2) (hepCont r2 hr2nd)
  · rcases hex with ⟨rfl, hsame⟩ | ⟨e, sd, ds2, hepeq, he, hsdne, hds2, hdec3, hr3nd, hepre⟩
    · simpa using hr2ep
    · exact hepre r2 hr2nd

/-- What a successful number scan tells us: the literal is the consumed
prefix, starts with a minus sign or digit, and rescans identically in front
of any safe continuation. -/
theorem jsonNumber_spec {cs lit rest : List Char} (h : jsonNumber cs = some (lit, rest)) :
    cs = lit ++ rest ∧
    (∃ c t, lit = c :: t ∧ (c = '-' ∨ jsonDigit c = true)) ∧
    ∀ r2, safeCont r2 = true → jsonNumber (lit ++ r2) = some (lit, r2) := by
  cases cs with
  | nil => exact absurd h (by simp [jsonNumber])
  | cons c rest0 =>
    by_cases hc : c = '-'
    · subst hc
      simp only [jsonNumber, reduceIte] at h
      rcases hip : jsonIntPart rest0 with _ | ⟨ip, r1⟩
      · rw [hip] at h; exact absurd h (by simp)
      rw [hip] at h
      dsimp only at h
      rcases hfp : jsonFracPart r1 with ⟨fp, r2x⟩
      rw [hfp] at h
      dsimp only at h
      rcases hep : jsonExpPart r2x with ⟨ep, r3⟩
      rw [hep] at h
      simp only [Option.some.injEq, Prod.mk.injEq] at h
      obtain ⟨hlit, hrest⟩ := h
      subst hrest
      obtain ⟨hdec, _, hre⟩ := jsonNumberTail_spec hip hfp hep
      subst hlit
      refine ⟨by simp [hdec, List.append_assoc], ⟨'-', ip ++ fp ++ ep, by simp, Or.inl rfl⟩, ?_⟩
      intro r2 hr2
      obtain ⟨h1, h2, h3⟩ := hre r2 hr2
      simp only [jsonNumber, List.cons_append, reduceIte]
      rw [show ((ip ++ fp ++ ep) ++ r2 : List Char) = ip ++ (fp ++ ep ++ r2) by
        simp [List.append_assoc]]
      rw [h1]
      dsimp only
      rw [h2]
      dsimp only
      rw [h3]
    · simp only [jsonNumber, hc, if_false, reduceIte] at h
      rcases hip : jsonIntPart (c :: rest0) with _ | ⟨ip, r1⟩
      · rw [hip] at h; exact absurd h (by simp)
      rw [hip] at h
      dsimp only at h
      rcases hfp : jsonFracPart r1 with ⟨fp, r2x⟩
      rw [hfp] at h
      dsimp only at h
      rcases hep : jsonExpPart r2x with ⟨ep, r3⟩
      rw [hep] at h
      simp only [Option.some.injEq, Prod.mk.injEq] at h
      obtain ⟨hlit, hrest⟩ := h
      subst hrest
      obtain ⟨hdec, hhead, hre⟩ := jsonNumberTail_spec hip hfp hep
      obtain ⟨c0, t0, hip0, hc0d⟩ := hhead
      subst hlit
      have hc0m : c0 ≠ '-' := ne_of_class hc0d (by decide)
      refine ⟨by simpa [List.append_assoc] using hdec,
        ⟨c0, t0 ++ fp ++ ep, by simp [hip0], Or.inr hc0d⟩, ?_⟩
      intro r2 hr2
      obtain ⟨h1, h2, h3⟩ := hre r2 hr2
      rw [hip0]
      simp only [jsonNumber, List.cons_append, hc0m, if_false, reduceIte]
      rw [show (c0 :: (t0 ++ fp ++ ep ++ r2) : List Char) = ip ++ (fp ++ ep ++ r2) by
        simp [hip0, List.append_assoc]]
      rw [h1]
      dsimp only
      rw [h2]
      dsimp only
      rw [h3]
      simp [hip0, List.append_assoc]

/-- The characters a successful value parse can start with. -/
def jsonStarter (c : Char) : Bool :=
  c = '{' || c = '[' || c = '"' || c = 't' || c = 'f' || c = 'n' ||
  c = 'N' || c = 'I' || c = '-' || jsonDigit c

theorem jsonStarter_not_ws {c : Char} (h : jsonStarter c = true) : isJsonWs c = false := by
  cases hw : isJsonWs c with
  | false => rfl
  | true =>
    rcases isJsonWs_elim hw with rfl | rfl | rfl | rfl <;> exact absurd h (by decide)

theorem safeCont_ws_append {w r : List Char} (hw : ∀ x ∈ w, isJsonWs x)
    (hr : safeCont r = true) : safeCont (w ++ r) = true := by
  cases w with
  | nil => simpa using hr
  | cons c t =>
    have : isJsonWs c = true := hw c (by simp)
    simp [safeCont, this]

/-- Behaviour of a successful string-body scan at fuel f: the consumed
prefix, and identical rescanning with any continuation at sufficient fuel. -/
def StrSpec (f : Nat) : Prop :=
  ∀ cs s rest, parseStr f cs = some (s, rest) →
    ∃ pre, cs = pre ++ rest ∧
      ∀ rest2 g, pre.length + 1 ≤ g → parseStr g (pre ++ rest2) = some (s, rest2)

/-- Behaviour of a successful value parse at fuel f: the consumed prefix,
its starter head, the brace shape when the value is an object, and
identical rescanning before safe continuations at sufficient fuel. -/
def ValSpec (f : Nat) : Prop :=
  ∀ cs v rest, parseVal f cs = some (v, rest) →
    ∃ c0 pre1, cs = (c0 :: pre1) ++ rest ∧ jsonStarter c0 = true ∧
      (∀ kvs, v = Json.obj kvs → ∃ mid, c0 :: pre1 = '{' :: mid ++ ['}']) ∧
      ∀ rest2 g, safeCont rest2 = true → 2 * (pre1.length + 1) + 1 ≤ g →
        parseVal g ((c0 :: pre1) ++ rest2) = some (v, rest2)

/-- Behaviour of a successful member-list parse at fuel f. -/
def MemSpec (f : Nat) : Prop :=
  ∀ cs kvs rest, parseMembers f cs = some (kvs, rest) →
    ∃ mid, cs = ('"' :: mid ++ ['}']) ++ rest ∧
      ∀ rest2 g, safeCont rest2 = true → 2 * (mid.length + 2) + 1 ≤ g →
        parseMembers g (('"' :: mid ++ ['}']) ++ rest2) = some (kvs, rest2)

/-- Behaviour of a successful element-list parse at fuel f. -/
def ElemsSpec (f : Nat) : Prop :=
  ∀ cs vs rest, parseElems f cs = some (vs, rest) →
    ∃ c0 pre1, cs = (c0 :: pre1 ++ [']']) ++ rest ∧ jsonStarter c0 = true ∧
      ∀ rest2 g, safeCont rest2 = true → 2 * (pre1.length + 2) + 1 ≤ g →
        parseElems g ((c0 :: pre1 ++ [']']) ++ rest2) = some (vs, rest2)

theorem strStep (f : Nat) (ihS : StrSpec f) : StrSpec (f + 1) := by
  intro cs s rest h
  cases cs with
  | nil => exact absurd h (by simp [parseStr])
  | cons c rest0 =>
    by_cases hq : c = '"'
    · subst hq
      simp only [parseStr, reduceIte, Option.some.injEq, Prod.mk.injEq] at h
      obtain ⟨rfl, rfl⟩ := h
      refine ⟨['"'], rfl, ?_⟩
      intro rest2 g hg
      obtain ⟨g', rfl⟩ : ∃ g', g = g' + 1 := ⟨g - 1, by omega⟩
      simp [parseStr]
    by_cases hb : c = '\\'
    · subst hb
      simp only [parseStr, reduceIte, hq, if_false] at h
      cases rest0 with
      | nil => exact absurd h (by simp)
      | cons e rest2 =>
        by_cases hu : e = 'u'
        · subst hu
          simp only [reduceIte] at h
          rcases rest2 with _ | ⟨h1, rest2a⟩
          · exact absurd h (by simp)
          rcases rest2a with _ | ⟨h2, rest2b⟩
          · exact absurd h (by simp)
          rcases rest2b with _ | ⟨h3, rest2c⟩
          · exact absurd h (by simp)
          rcases rest2c with _ | ⟨h4, rest3⟩
          · exact absurd h (by simp)
          dsimp only at h
          split at h
          · rename_i hhex
            rcases hps : parseStr f rest3 with _ | ⟨s1, rx⟩
            · rw [hps] at h; exact absurd h (by simp)
            rw [hps] at h
            simp only [Option.map_some', Option.some.injEq, Prod.mk.injEq] at h
            obtain ⟨rfl, rfl⟩ := h
            obtain ⟨preS, rfl, hre⟩ := ihS _ _ _ hps
            refine ⟨'\\' :: 'u' :: h1 :: h2 :: h3 :: h4 :: preS, by simp, ?_⟩
            intro rest2' g hg
            simp only [List.length_cons] at hg
            obtain ⟨g', rfl⟩ : ∃ g', g = g' + 1 := ⟨g - 1, by omega⟩
            simp only [List.cons_append, List.append_eq, parseStr, reduceIte, hhex]
            rw [hre rest2' g' (by omega)]
            simp
          · exact absurd h (by simp)
        · simp only [hu, if_false, reduceIte] at h
          split at h
          · rename_i hesc
            rcases hps : parseStr f rest2 with _ | ⟨s1, rx⟩
            · rw [hps] at h; exact absurd h (by simp)
            rw [hps] at h
            simp only [Option.map_some', Option.some.injEq, Prod.mk.injEq] at h
            obtain ⟨rfl, rfl⟩ := h
            obtain ⟨preS, rfl, hre⟩ := ihS _ _ _ hps
            refine ⟨'\\' :: e :: preS, by simp, ?_⟩
            intro rest2' g hg
            simp only [List.length_cons] at hg
            obtain ⟨g', rfl⟩ : ∃ g', g = g' + 1 := ⟨g - 1, by omega⟩
            simp only [List.cons_append, List.append_eq, parseStr, reduceIte, hu, if_false,
              hesc, if_true]
            rw [hre rest2' g' (by omega)]
            simp
          · exact absurd h (by simp)
    · simp only [parseStr, hq, hb, if_false] at h
      split at h
      · exact absurd h (by simp)
      · rename_i hctrl
        rcases hps : parseStr f rest0 with _ | ⟨s1, rx⟩
        · rw [hps] at h; exact absurd h (by simp)
        rw [hps] at h
        simp only [Option.map_some', Option.some.injEq, Prod.mk.injEq] at h
        obtain ⟨rfl, rfl⟩ := h
        obtain ⟨preS, rfl, hre⟩ := ihS _ _ _ hps
        refine ⟨c :: preS, by simp, ?_⟩
        intro rest2' g hg
        simp only [List.length_cons] at hg
        obtain ⟨g', rfl⟩ : ∃ g', g = g' + 1 := ⟨g - 1, by omega⟩
        simp only [List.cons_append, List.append_eq, parseStr, hq, hb, hctrl, if_false]
        rw [hre rest2' g' (by omega)]
        simp [hq, hb]

theorem memStep (f : Nat) (ihS : StrSpec f) (ihV : ValSpec f) (ihM : MemSpec f) :
    MemSpec (f + 1) := by
  intro cs kvs rest h
  cases cs with
  | nil => exact absurd h (by simp [parseMembers])
  | cons c rest0 =>
    by_cases hc : c = '"'
    swap
    · exact absurd h (by simp [parseMembers, hc])
    subst hc
    simp only [parseMembers, reduceIte] at h
    rcases hks : parseStr f rest0 with _ | ⟨key, r1⟩
    · rw [hks] at h; exact absurd h (by simp)
    rw [hks] at h
    dsimp only at h
    rcases hsw1 : skipWs r1 with _ | ⟨d, r2⟩
    · rw [hsw1] at h; exact absurd h (by simp)
    rw [hsw1] at h
    dsimp only at h
    split at h
    swap
    · exact absurd h (by simp)
    rename_i hdc
    subst hdc
    rcases hpv : parseVal f (skipWs r2) with _ | ⟨v, r3⟩
    · rw [hpv] at h; exact absurd h (by simp)
    rw [hpv] at h
    dsimp only at h
    rcases hsw3 : skipWs r3 with _ | ⟨d2, r4⟩
    · rw [hsw3] at h; exact absurd h (by simp)
    rw [hsw3] at h
    dsimp only at h
    -- shared decompositions
    obtain ⟨preS, hr0, hreS⟩ := ihS _ _ _ hks
    obtain ⟨w1, hr1, hw1⟩ := skipWs_decomp r1
    rw [hsw1] at hr1
    obtain ⟨w2, hr2, hw2⟩ := skipWs_decomp r2
    obtain ⟨c0, pre1v, hts, hstart, _, hreV⟩ := ihV _ _ _ hpv
    rw [hts] at hr2
    obtain ⟨w3, hr3, hw3⟩ := skipWs_decomp r3
    rw [hsw3] at hr3
    split at h
    · -- comma: recurse on the remaining members
      rename_i hcomma
      subst hcomma
      rcases hpm : parseMembers f (skipWs r4) with _ | ⟨kvs1, r5⟩
      · rw [hpm] at h; exact absurd h (by simp)
      rw [hpm] at h
      simp only [Option.map_some', Option.some.injEq, Prod.mk.injEq] at h
      obtain ⟨rfl, rfl⟩ := h
      obtain ⟨w4, hr4, hw4⟩ := skipWs_decomp r4
      obtain ⟨mid1, htm, hreM⟩ := ihM _ _ _ hpm
      rw [htm] at hr4
      refine ⟨preS ++ w1 ++ ':' :: w2 ++ (c0 :: pre1v) ++ w3 ++ ',' :: w4 ++ '"' :: mid1, ?_, ?_⟩
      · rw [hr0, hr1, hr2, hr3, hr4]
        simp [List.append_assoc]
      intro rest2 g hsafe hg
      simp only [List.length_append, List.length_cons] at hg
      obtain ⟨g', rfl⟩ : ∃ g', g = g' + 1 := ⟨g - 1, by omega⟩
      have hshape : ((('"' :: (preS ++ w1 ++ ':' :: w2 ++ (c0 :: pre1v) ++ w3 ++
          ',' :: w4 ++ '"' :: mid1) ++ ['}']) ++ rest2 : List Char)) =
          '"' :: (preS ++ (w1 ++ ':' :: (w2 ++ ((c0 :: pre1v) ++ (w3 ++
            ',' :: (w4 ++ (('"' :: mid1 ++ ['}']) ++ rest2))))))) := by
        simp [List.append_assoc]
      rw [hshape]
      simp only [parseMembers, reduceIte]
      rw [hreS _ g' (by omega)]
      dsimp only
      rw [skipWs_ws_cons hw1 (by decide)]
      dsimp only [reduceIte]
      rw [show (w2 ++ ((c0 :: pre1v) ++ (w3 ++ ',' :: (w4 ++ (('"' :: mid1 ++ ['}']) ++
          rest2)))) : List Char) = w2 ++ (c0 :: (pre1v ++ (w3 ++ ',' :: (w4 ++
          (('"' :: mid1 ++ ['}']) ++ rest2))))) by simp]
      rw [skipWs_ws_cons hw2 (jsonStarter_not_ws hstart)]
      rw [show (c0 :: (pre1v ++ (w3 ++ ',' :: (w4 ++ (('"' :: mid1 ++ ['}']) ++ rest2))))
          : List Char) = (c0 :: pre1v) ++ (w3 ++ ',' :: (w4 ++ (('"' :: mid1 ++ ['}']) ++
          rest2))) by simp]
      rw [hreV _ g' (safeCont_ws_append hw3 (by simp [safeCont])) (by omega)]
      dsimp only
      rw [skipWs_ws_cons hw3 (by decide)]
      dsimp only [reduceIte]
      rw [skipWs_append_ws _ hw4]
      rw [show skipWs (('"' :: mid1 ++ ['}']) ++ rest2) = ('"' :: mid1 ++ ['}']) ++ rest2 by
        refine skipWs_cons_neg _ (by decide)]
      rw [hreM rest2 g' hsafe (by omega)]
      simp
    · -- closing brace: single member
      split at h
      swap
      · exact absurd h (by simp)
      rename_i hbrace
      subst hbrace
      simp only [Option.some.injEq, Prod.mk.injEq] at h
      obtain ⟨rfl, rfl⟩ := h
      refine ⟨preS ++ w1 ++ ':' :: w2 ++ (c0 :: pre1v) ++ w3, ?_, ?_⟩
      · rw [hr0, hr1, hr2, hr3]
        simp [List.append_assoc]
      intro rest2 g hsafe hg
      simp only [List.length_append, List.length_cons] at hg
      obtain ⟨g', rfl⟩ : ∃ g', g = g' + 1 := ⟨g - 1, by omega⟩
      have hshape : ((('"' :: (preS ++ w1 ++ ':' :: w2 ++ (c0 :: pre1v) ++ w3) ++ ['}']) ++
          rest2 : List Char)) =
          '"' :: (preS ++ (w1 ++ ':' :: (w2 ++ ((c0 :: pre1v) ++ (w3 ++ '}' :: rest2))))) := by
        simp [List.append_assoc]
      rw [hshape]
      simp only [parseMembers, reduceIte]
      rw [hreS _ g' (by omega)]
      dsimp only
      rw [skipWs_ws_cons hw1 (by decide)]
      dsimp only [reduceIte]
      rw [show (w2 ++ ((c0 :: pre1v) ++ (w3 ++ '}' :: rest2)) : List Char) =
          w2 ++ (c0 :: (pre1v ++ (w3 ++ '}' :: rest2))) by simp]
      rw [skipWs_ws_cons hw2 (jsonStarter_not_ws hstart)]
      rw [show (c0 :: (pre1v ++ (w3 ++ '}' :: rest2)) : List Char) =
          (c0 :: pre1v) ++ (w3 ++ '}' :: rest2) by simp]
      rw [hreV _ g' (safeCont_ws_append hw3 (by simp [safeCont])) (by omega)]
      dsimp only
      rw [skipWs_ws_cons hw3 (by decide)]
      simp

theorem elemsStep (f : Nat) (ihV : ValSpec f) (ihE : ElemsSpec f) : ElemsSpec (f + 1) := by
  intro cs vs rest h
  simp only [parseElems] at h
  rcases hpv : parseVal f cs with _ | ⟨v, r1⟩
  · rw [hpv] at h; exact absurd h (by simp)
  rw [hpv] at h
  dsimp only at h
  rcases hsw1 : skipWs r1 with _ | ⟨d, r2⟩
  · rw [hsw1] at h; exact absurd h (by simp)
  rw [hsw1] at h
  dsimp only at h
  obtain ⟨c0, pre1v, hts, hstart, _, hreV⟩ := ihV _ _ _ hpv
  obtain ⟨w1, hr1, hw1⟩ := skipWs_decomp r1
  rw [hsw1] at hr1
  split at h
  · -- comma: more elements follow
    rename_i hcomma
    subst hcomma
    rcases hpe : parseElems f (skipWs r2) with _ | ⟨vs1, r5⟩
    · rw [hpe] at h; exact absurd h (by simp)
    rw [hpe] at h
    simp only [Option.map_some', Option.some.injEq, Prod.mk.injEq] at h
    obtain ⟨rfl, rfl⟩ := h
    obtain ⟨w2, hr2, hw2⟩ := skipWs_decomp r2
    obtain ⟨c1, pre1b, hte, hstart1, hreE⟩ := ihE _ _ _ hpe
    rw [hte] at hr2
    refine ⟨c0, pre1v ++ w1 ++ ',' :: w2 ++ (c1 :: pre1b), ?_, hstart, ?_⟩
    · rw [hts, hr1, hr2]
      simp [List.append_assoc]
    intro rest2 g hsafe hg
    simp only [List.length_append, List.length_cons] at hg
    obtain ⟨g', rfl⟩ : ∃ g', g = g' + 1 := ⟨g - 1, by omega⟩
    have hshape : (((c0 :: (pre1v ++ w1 ++ ',' :: w2 ++ (c1 :: pre1b)) ++ [']']) ++
        rest2 : List Char)) =
        (c0 :: pre1v) ++ (w1 ++ ',' :: (w2 ++ ((c1 :: pre1b ++ [']']) ++ rest2))) := by
      simp [List.append_assoc]
    rw [hshape]
    simp only [parseElems]
    rw [hreV _ g' (safeCont_ws_append hw1 (by simp [safeCont])) (by omega)]
    dsimp only
    rw [skipWs_ws_cons hw1 (by decide)]
    dsimp only [reduceIte]
    rw [show (w2 ++ ((c1 :: pre1b ++ [']']) ++ rest2) : List Char) =
        w2 ++ (c1 :: ((pre1b ++ [']']) ++ rest2)) by simp]
    rw [skipWs_ws_cons hw2 (jsonStarter_not_ws hstart1)]
    rw [show (c1 :: ((pre1b ++ [']']) ++ rest2) : List Char) =
        (c1 :: pre1b ++ [']']) ++ rest2 by simp]
    rw [hreE rest2 g' hsafe (by omega)]
    simp
  · -- closing bracket: single element
    split at h
    swap
    · exact absurd h (by simp)
    rename_i hbr
    subst hbr
    simp only [Option.some.injEq, Prod.mk.injEq] at h
    obtain ⟨rfl, rfl⟩ := h
    refine ⟨c0, pre1v ++ w1, ?_, hstart, ?_⟩
    · rw [hts, hr1]
      simp [List.append_assoc]
    intro rest2 g hsafe hg
    simp only [List.length_append, List.length_cons] at hg
    obtain ⟨g', rfl⟩ : ∃ g', g = g' + 1 := ⟨g - 1, by omega⟩
    have hshape : (((c0 :: (pre1v ++ w1) ++ [']']) ++ rest2 : List Char)) =
        (c0 :: pre1v) ++ (w1 ++ ']' :: rest2) := by
      simp [List.append_assoc]
    rw [hshape]
    simp only [parseElems]
    rw [hreV _ g' (safeCont_ws_append hw1 (by simp [safeCont])) (by omega)]
    dsimp only
    rw [skipWs_ws_cons hw1 (by decide)]
    simp

theorem valStep (f : Nat) (ihS : StrSpec f) (ihM : MemSpec f) (ihE : ElemsSpec f) :
    ValSpec (f + 1) := by
  intro cs v rest h
  cases cs with
  | nil => exact absurd h (by simp [parseVal])
  | cons c rest0 =>
    by_cases h1 : c = '{'
    · subst h1
      simp only [parseVal, reduceIte] at h
      rcases hsw : skipWs rest0 with _ | ⟨d, r2⟩
      · rw [hsw] at h; exact absurd h (by simp)
      rw [hsw] at h
      dsimp only at h
      obtain ⟨w, hr0, hw⟩ := skipWs_decomp rest0
      rw [hsw] at hr0
      split at h
      · -- empty object
        rename_i hd
        subst hd
        simp only [Option.some.injEq, Prod.mk.injEq] at h
        obtain ⟨rfl, rfl⟩ := h
        refine ⟨'{', w ++ ['}'], by rw [hr0]; simp, by decide, ?_, ?_⟩
        · intro kvs _
          exact ⟨w, by simp⟩
        intro rest2 g hsafe hg
        obtain ⟨g', rfl⟩ : ∃ g', g = g' + 1 := ⟨g - 1, by omega⟩
        rw [show (('{' :: (w ++ ['}'])) ++ rest2 : List Char) = '{' :: (w ++ '}' :: rest2) by
          simp]
        simp only [parseVal, reduceIte]
        rw [skipWs_ws_cons hw (by decide)]
        simp
      · -- nonempty object
        rename_i hd
        rcases hpm : parseMembers f (d :: r2) with _ | ⟨kvs1, r5⟩
        · rw [hpm] at h; exact absurd h (by simp)
        rw [hpm] at h
        simp only [Option.map_some', Option.some.injEq, Prod.mk.injEq] at h
        obtain ⟨rfl, rfl⟩ := h
        obtain ⟨mid, hdm, hreM⟩ := ihM _ _ _ hpm
        have hdq : d = '"' := by
          have := congrArg (fun l => l.head?) hdm
          simpa using this
        subst hdq
        refine ⟨'{', w ++ '"' :: mid ++ ['}'], ?_, by decide, ?_, ?_⟩
        · rw [hr0, show (('"' :: r2 : List Char)) = ('"' :: mid ++ ['}']) ++ r5 from hdm]
          simp [List.append_assoc]
        · intro kvs _
          exact ⟨w ++ '"' :: mid, by simp⟩
        intro rest2 g hsafe hg
        simp only [List.length_append, List.length_cons] at hg
        obtain ⟨g', rfl⟩ : ∃ g', g = g' + 1 := ⟨g - 1, by omega⟩
        rw [show (('{' :: (w ++ '"' :: mid ++ ['}'])) ++ rest2 : List Char) =
          '{' :: (w ++ '"' :: ((mid ++ ['}']) ++ rest2)) by simp]
        simp only [parseVal, reduceIte]
        rw [skipWs_ws_cons hw (by decide)]
        dsimp only [reduceIte]
        rw [show ('"' :: ((mid ++ ['}']) ++ rest2) : List Char) =
          ('"' :: mid ++ ['}']) ++ rest2 by simp]
        rw [hreM rest2 g' hsafe (by omega)]
        simp
    by_cases h2 : c = '['
    · subst h2
      simp only [parseVal, h1, if_false, reduceIte] at h
      rcases hsw : skipWs rest0 with _ | ⟨d, r2⟩
      · rw [hsw] at h; exact absurd h (by simp)
      rw [hsw] at h
      dsimp only at h
      obtain ⟨w, hr0, hw⟩ := skipWs_decomp rest0
      rw [hsw] at hr0
      split at h
      · -- empty array
        rename_i hd
        subst hd
        simp only [Option.some.injEq, Prod.mk.injEq] at h
        obtain ⟨rfl, rfl⟩ := h
        refine ⟨'[', w ++ [']'], by rw [hr0]; simp, by decide, ?_, ?_⟩
        · intro kvs heq
          simp at heq
        intro rest2 g hsafe hg
        obtain ⟨g', rfl⟩ : ∃ g', g = g' + 1 := ⟨g - 1, by omega⟩
        rw [show (('[' :: (w ++ [']'])) ++ rest2 : List Char) = '[' :: (w ++ ']' :: rest2) by
          simp]
        simp only [parseVal, reduceIte]
        rw [skipWs_ws_cons hw (by decide)]
        simp
      · -- nonempty array
        rename_i hd
        rcases hpe : parseElems f (d :: r2) with _ | ⟨vs1, r5⟩
        · rw [hpe] at h; exact absurd h (by simp)
        rw [hpe] at h
        simp only [Option.map_some', Option.some.injEq, Prod.mk.injEq] at h
        obtain ⟨rfl, rfl⟩ := h
        obtain ⟨c1, pre1b, hdm, hstart1, hreE⟩ := ihE _ _ _ hpe
        have hdq : d = c1 := by
          have := congrArg (fun l => l.head?) hdm
          simpa using this
        subst hdq
        refine ⟨'[', w ++ (d :: pre1b ++ [']']), ?_, by decide, ?_, ?_⟩
        · rw [hr0, show ((d :: r2 : List Char)) = (d :: pre1b ++ [']']) ++ r5 from hdm]
          simp [List.append_assoc]
        · intro kvs heq
          simp at heq
        intro rest2 g hsafe hg
        simp only [List.length_append, List.length_cons] at hg
        obtain ⟨g', rfl⟩ : ∃ g', g = g' + 1 := ⟨g - 1, by omega⟩
        rw [show (('[' :: (w ++ (d :: pre1b ++ [']']))) ++ rest2 : List Char) =
          '[' :: (w ++ d :: ((pre1b ++ [']']) ++ rest2)) by simp]
        simp only [parseVal, reduceIte]
        rw [skipWs_ws_cons hw (jsonStarter_not_ws hstart1)]
        have hdne : (d = ']') = False := by
          simp only [eq_iff_iff, iff_false]
          exact ne_of_class hstart1 (by decide)
        dsimp only
        simp only [hdne, if_false]
        rw [show (d :: ((pre1b ++ [']']) ++ rest2) : List Char) =
          (d :: pre1b ++ [']']) ++ rest2 by simp]
        rw [hreE rest2 g' hsafe (by omega)]
        simp
    by_cases h3 : c = '"'
    · subst h3
      simp only [parseVal, h1, h2, if_false, reduceIte] at h
      rcases hps : parseStr f rest0 with _ | ⟨s1, r1⟩
      · rw [hps] at h; exact absurd h (by simp)
      rw [hps] at h
      simp only [Option.map_some', Option.some.injEq, Prod.mk.injEq] at h
      obtain ⟨rfl, rfl⟩ := h
      obtain ⟨preS, rfl, hreS⟩ := ihS _ _ _ hps
      refine ⟨'"', preS, by simp, by decide, ?_, ?_⟩
      · intro kvs heq
        simp at heq
      intro rest2 g hsafe hg
      obtain ⟨g', rfl⟩ : ∃ g', g = g' + 1 := ⟨g - 1, by omega⟩
      simp only [List.cons_append, parseVal, reduceIte]
      rw [hreS rest2 g' (by omega)]
      simp
    by_cases h4 : c = 't'
    · subst h4
      simp only [parseVal, h1, h2, h3, if_false, reduceIte] at h
      split at h
      swap
      · exact absurd h (by simp)
      simp only [Option.some.injEq, Prod.mk.injEq] at h
      obtain ⟨rfl, rfl⟩ := h
      refine ⟨'t', ['r', 'u', 'e'], by simp, by decide, ?_, ?_⟩
      · intro kvs heq2
        simp at heq2
      intro rest2 g hsafe hg
      obtain ⟨g', rfl⟩ : ∃ g', g = g' + 1 := ⟨g - 1, by omega⟩
      simp [parseVal]
    by_cases h5 : c = 'f'
    · subst h5
      simp only [parseVal, h1, h2, h3, h4, if_false, reduceIte] at h
      split at h
      swap
      · exact absurd h (by simp)
      simp only [Option.some.injEq, Prod.mk.injEq] at h
      obtain ⟨rfl, rfl⟩ := h
      refine ⟨'f', ['a', 'l', 's', 'e'], by simp, by decide, ?_, ?_⟩
      · intro kvs heq2
        simp at heq2
      intro rest2 g hsafe hg
      obtain ⟨g', rfl⟩ : ∃ g', g = g' + 1 := ⟨g - 1, by omega⟩
      simp [parseVal]
    by_cases h6 : c = 'n'
    · subst h6
      simp only [parseVal, h1, h2, h3, h4, h5, if_false, reduceIte] at h
      split at h
      swap
      · exact absurd h (by simp)
      simp only [Option.some.injEq, Prod.mk.injEq] at h
      obtain ⟨rfl, rfl⟩ := h
      refine ⟨'n', ['u', 'l', 'l'], by simp, by decide, ?_, ?_⟩
      · intro kvs heq2
        simp at heq2
      intro rest2 g hsafe hg
      obtain ⟨g', rfl⟩ : ∃ g', g = g' + 1 := ⟨g - 1, by omega⟩
      simp [parseVal]
    by_cases h7 : c = 'N'
    · subst h7
      simp only [parseVal, h1, h2, h3, h4, h5, h6, if_false, reduceIte] at h
      split at h
      swap
      · exact absurd h (by simp)
      simp only [Option.some.injEq, Prod.mk.injEq] at h
      obtain ⟨rfl, rfl⟩ := h
      refine ⟨'N', ['a', 'N'], by simp, by decide, ?_, ?_⟩
      · intro kvs heq2
        simp at heq2
      intro rest2 g hsafe hg
      obtain ⟨g', rfl⟩ : ∃ g', g = g' + 1 := ⟨g - 1, by omega⟩
      simp [parseVal]
    by_cases h8 : c = 'I'
    · subst h8
      simp only [parseVal, h1, h2, h3, h4, h5, h6, h7, if_false, reduceIte] at h
      split at h
      swap
      · exact absurd h (by simp)
      simp only [Option.some.injEq, Prod.mk.injEq] at h
      obtain ⟨rfl, rfl⟩ := h
      refine ⟨'I', ['n', 'f', 'i', 'n', 'i', 't', 'y'], by simp, by decide, ?_, ?_⟩
      · intro kvs heq2
        simp at heq2
      intro rest2 g hsafe hg
      obtain ⟨g', rfl⟩ : ∃ g', g = g' + 1 := ⟨g - 1, by omega⟩
      simp [parseVal]
    · -- number or -Infinity
      simp only [parseVal, h1, h2, h3, h4, h5, h6, h7, h8, if_false] at h
      rcases hjn : jsonNumber (c :: rest0) with _ | ⟨lit, r1⟩
      · rw [hjn] at h
        dsimp only at h
        split at h
        swap
        · exact absurd h (by simp)
        rename_i x0 rI heq
        simp only [Option.some.injEq, Prod.mk.injEq] at h
        obtain ⟨rfl, hrr⟩ := h
        simp only [List.cons.injEq] at heq
        obtain ⟨hc, hr0⟩ := heq
        subst hc
        subst hr0
        refine ⟨'-', ['I', 'n', 'f', 'i', 'n', 'i', 't', 'y'], by rw [← hrr]; simp,
          by decide, ?_, ?_⟩
        · intro kvs heq2
          simp at heq2
        intro rest2 g hsafe hg
        obtain ⟨g', rfl⟩ : ∃ g', g = g' + 1 := ⟨g - 1, by omega⟩
        simp [parseVal, jsonNumber, jsonIntPart, jsonDigit]
      · rw [hjn] at h
        dsimp only at h
        simp only [Option.some.injEq, Prod.mk.injEq] at h
        obtain ⟨rfl, hrr⟩ := h
        obtain ⟨hdec, ⟨cL, tL, rfl, hcL⟩, hrec⟩ := jsonNumber_spec hjn
        have hc : c = cL := by
          have := congrArg (fun l => l.head?) hdec
          simpa using this
        subst hc
        have hr0 : rest0 = tL ++ r1 := by
          have := congrArg (fun l => l.tail) hdec
          simpa using this
        refine ⟨c, tL, by rw [hr0, hrr]; simp, ?_, ?_, ?_⟩
        · rcases hcL with rfl | hd
          · decide
          · simp [jsonStarter, hd]
        · intro kvs heq2
          simp at heq2
        intro rest2 g hsafe hg
        obtain ⟨g', rfl⟩ : ∃ g', g = g' + 1 := ⟨g - 1, by omega⟩
        simp only [List.cons_append, parseVal, h1, h2, h3, h4, h5, h6, h7, h8, if_false]
        rw [show (c :: (tL ++ rest2) : List Char) = (c :: tL) ++ rest2 by simp]
        rw [hrec rest2 hsafe]

/-- The combined locality/fuel lemma for the whole parser family, by
induction on the fuel. -/
theorem parseMaster : ∀ f : Nat, StrSpec f ∧ ValSpec f ∧ MemSpec f ∧ ElemsSpec f := by
  intro f
  induction f with
  | zero =>
    refine ⟨?_, ?_, ?_, ?_⟩ <;> intro cs a b h <;> exact absurd h (by simp [parseStr,
      parseVal, parseMembers, parseElems])
  | succ f ih =>
    obtain ⟨ihS, ihV, ihM, ihE⟩ := ih
    exact ⟨strStep f ihS, valStep f ihS ihM ihE, memStep f ihS ihV ihM,
      elemsStep f ihV ihE⟩

/-- The shape of a whole-input parse of an object: leading whitespace, a
brace-delimited core, trailing whitespace; and the core parses to the same
value on its own. -/
theorem jsonLoads_obj_decomp {cs : List Char} {kvs : List (List Char × Json)}
    (h : jsonLoads cs = some (Json.obj kvs)) :
    ∃ w1 mid w2, cs = w1 ++ ('{' :: mid ++ ['}']) ++ w2 ∧
      (∀ x ∈ w1, isJsonWs x = true) ∧ (∀ x ∈ w2, isJsonWs x = true) ∧
      jsonLoads ('{' :: mid ++ ['}']) = some (Json.obj kvs) := by
  unfold jsonLoads at h
  rcases hpv : parseVal (2 * cs.length + 2) (skipWs cs) with _ | ⟨v, rest⟩
  · rw [hpv] at h; exact absurd h (by simp)
  rw [hpv] at h
  dsimp only at h
  split at h
  swap
  · exact absurd h (by simp)
  rename_i hrest
  simp only [Option.some.injEq] at h
  subst h
  obtain ⟨c0, pre1, hdec, hstart, hobj, hre⟩ := (parseMaster _).2.1 _ _ _ hpv
  obtain ⟨mid, hmid⟩ := hobj kvs rfl
  obtain ⟨w1, hw1dec, hw1⟩ := skipWs_decomp cs
  refine ⟨w1, mid, rest, ?_, hw1, allWs_of_skipWs_nil hrest, ?_⟩
  · rw [hw1dec, hdec, hmid]
    simp [List.append_assoc]
  · have hpre : parseVal (2 * ('{' :: mid ++ ['}']).length + 2)
        (('{' :: mid ++ ['}']) ++ []) = some (Json.obj kvs, []) := by
      rw [← hmid]
      refine hre [] _ (by simp [safeCont]) ?_
      have : ((c0 :: pre1).length : Nat) = ('{' :: mid ++ ['}']).length := by rw [hmid]
      simp only [List.length_cons, List.length_append] at this
      simp only [List.length_cons, List.length_append, List.length_nil]
      omega
    simp only [List.append_nil] at hpre
    unfold jsonLoads
    rw [show skipWs ('{' :: mid ++ ['}']) = '{' :: mid ++ ['}'] from
      skipWs_cons_neg _ (by decide)]
    rw [hpre]
    simp [skipWs]

/-! ## Python string primitives -/

/-- The backtick character (0x60), written via its code point. -/
def btick : Char := Char.ofNat 96

/-- Python whitespace per str.isspace(), the set used both by str.strip()
with no argument and by the regex class \s on str patterns. -/
def isPyWs (c : Char) : Bool :=
  (9 ≤ c.toNat && c.toNat ≤ 13) || c = ' ' ||
  (28 ≤ c.toNat && c.toNat ≤ 31) || c.toNat = 133 || c.toNat = 160 ||
  c.toNat = 5760 || (8192 ≤ c.toNat && c.toNat ≤ 8202) ||
  c.toNat = 8232 || c.toNat = 8233 || c.toNat = 8239 ||
  c.toNat = 8287 || c.toNat = 12288

theorem isPyWs_of_isJsonWs {c : Char} (h : isJsonWs c = true) : isPyWs c = true := by
  rcases isJsonWs_elim h with rfl | rfl | rfl | rfl <;> decide

def dropTrailWhile (p : Char → Bool) (cs : List Char) : List Char :=
  (cs.reverse.dropWhile p).reverse

/-- Python str.strip(): drop leading and trailing whitespace. -/
def pyStrip (cs : List Char) : List Char :=
  dropTrailWhile isPyWs (cs.dropWhile isPyWs)

/-- Python str.strip(ch): drop leading and trailing copies of one char. -/
def pyStripChar (ch : Char) (cs : List Char) : List Char :=
  dropTrailWhile (fun c => c = ch) (cs.dropWhile (fun c => c = ch))

/-- Index of the first occurrence of a character, if any. -/
def pyFindChar (c : Char) : List Char → Option Nat
  | [] => none
  | x :: xs => if x = c then some 0 else (pyFindChar c xs).map (· + 1)

/-- Index of the last occurrence of a character, if any. -/
def pyRfindChar (c : Char) : List Char → Option Nat
  | [] => none
  | x :: xs =>
    match pyRfindChar c xs with
    | some i => some (i + 1)
    | none => if x = c then some 0 else none

/-- Python str.find for a single character: index or -1. -/
def pyFind (cs : List Char) (c : Char) : Int :=
  match pyFindChar c cs with
  | some i => (i : Int)
  | none => -1

/-- Python str.rfind for a single character: index or -1. -/
def pyRfind (cs : List Char) (c : Char) : Int :=
  match pyRfindChar c cs with
  | some i => (i : Int)
  | none => -1

/-- Python s[a:b] for indices within bounds. -/
def pySliceNat (cs : List Char) (a b : Nat) : List Char :=
  (cs.take b).drop a

theorem dropTrailWhile_concat {p : Char → Bool} {t w : List Char} {d : Char}
    (hw : ∀ y ∈ w, p y = true) (hd : p d = false) :
    dropTrailWhile p ((t ++ [d]) ++ w) = t ++ [d] := by
  unfold dropTrailWhile
  rw [List.reverse_append]
  have h2 : (t ++ [d]).reverse = d :: t.reverse := by simp
  rw [h2]
  have h1 := (takeWhile_all_append (p := p) (u := w.reverse) (r := d :: t.reverse)
      (fun y hy => hw y (by simpa using hy)) (Or.inr ⟨d, _, rfl, hd⟩)).2
  rw [h1]
  simp

theorem pyFindChar_first {c : Char} {q : List Char} :
    ∀ {p : List Char}, (∀ x ∈ p, x ≠ c) → pyFindChar c (p ++ c :: q) = some p.length := by
  intro p
  induction p with
  | nil => intro _; simp [pyFindChar]
  | cons x xs ih =>
    intro hp
    have hx : x ≠ c := hp x (by simp)
    simp only [List.cons_append, pyFindChar, hx, if_false, List.append_eq, ih
      (fun y hy => hp y (by simp [hy])), Option.map_some', List.length_cons]

theorem pyRfindChar_none {c : Char} : ∀ {q : List Char}, (∀ x ∈ q, x ≠ c) →
    pyRfindChar c q = none := by
  intro q
  induction q with
  | nil => intro _; rfl
  | cons x xs ih =>
    intro hq
    have hx : x ≠ c := hq x (by simp)
    simp only [pyRfindChar, ih (fun y hy => hq y (by simp [hy])), hx, if_false]

theorem pyRfindChar_last {c : Char} {q : List Char} (hq : ∀ x ∈ q, x ≠ c) :
    ∀ {p : List Char}, pyRfindChar c (p ++ c :: q) = some p.length := by
  intro p
  induction p with
  | nil =>
    simp only [List.nil_append, pyRfindChar, pyRfindChar_none hq, reduceIte, List.length_nil]
  | cons x xs ih =>
    simp only [List.cons_append, pyRfindChar, List.append_eq, ih, List.length_cons]

theorem pySliceNat_extract {p core q : List Char} :
    pySliceNat (p ++ core ++ q) p.length (p.length + core.length) = core := by
  unfold pySliceNat
  rw [show p.length + core.length = (p ++ core).length by simp]
  rw [show (p ++ core ++ q : List Char) = (p ++ core) ++ q by simp [List.append_assoc]]
  rw [List.take_left, List.drop_left]

/-- Stripping leaves a string alone when both ends are not whitespace. -/
theorem pyStrip_id {c d : Char} {m : List Char} (hc : isPyWs c = false)
    (hd : isPyWs d = false) : pyStrip (c :: m ++ [d]) = c :: m ++ [d] := by
  unfold pyStrip
  rw [show ((c :: m) ++ [d] : List Char) = c :: (m ++ [d]) from by simp]
  have h1 : List.dropWhile isPyWs (c :: (m ++ [d])) = c :: (m ++ [d]) :=
    List.dropWhile_cons_of_neg (by simp [hc])
  rw [h1]
  have := dropTrailWhile_concat (t := c :: m) (w := ([] : List Char)) (d := d)
    (by simp) hd
  simpa using this

/-- Stripping a whitespace-padded brace-delimited core yields the core. -/
theorem pyStrip_ws_core {w1 w2 mid : List Char} (hw1 : ∀ x ∈ w1, isJsonWs x = true)
    (hw2 : ∀ x ∈ w2, isJsonWs x = true) :
    pyStrip (w1 ++ ('{' :: mid ++ ['}']) ++ w2) = '{' :: mid ++ ['}'] := by
  unfold pyStrip
  have hA : (w1 ++ ('{' :: mid ++ ['}']) ++ w2).dropWhile isPyWs =
      ('{' :: mid ++ ['}']) ++ w2 := by
    rw [List.append_assoc]
    have := takeWhile_all_append (p := isPyWs) (u := w1)
      (r := ('{' :: mid ++ ['}']) ++ w2)
      (fun x hx => isPyWs_of_isJsonWs (hw1 x hx))
      (Or.inr ⟨'{', mid ++ '}' :: w2, by simp, by decide⟩)
    exact this.2
  rw [hA]
  have := dropTrailWhile_concat (t := '{' :: mid) (w := w2) (d := '}')
    (fun y hy => isPyWs_of_isJsonWs (hw2 y hy)) (by decide)
  simpa using this

/-- json.loads fails on anything whose first character is a backtick. -/
theorem jsonLoads_btick (t : List Char) : jsonLoads (btick :: t) = none := by
  unfold jsonLoads
  rw [show skipWs (btick :: t) = btick :: t from skipWs_cons_neg _ (by decide)]
  have hpv : ∀ f, parseVal f (btick :: t) = none := by
    intro f
    cases f with
    | zero => rfl
    | succ f =>
      simp only [parseVal]
      norm_num [show (btick = '{') = False by simp [btick], show (btick = '[') = False by
        simp [btick], show (btick = '"') = False by simp [btick], show (btick = 't') = False
        by simp [btick], show (btick = 'f') = False by simp [btick], show (btick = 'n') =
        False by simp [btick], show (btick = 'N') = False by simp [btick],
        show (btick = 'I') = False by simp [btick]]
      rw [show jsonNumber (btick :: t) = none by
        simp [jsonNumber, jsonIntPart, show (btick = '-') = False by simp [btick],
          show (btick = '0') = False by simp [btick],
          show jsonDigit btick = false by simp [jsonDigit, btick]]]
      rfl
  rw [hpv]

/-! ## The resume route JSON-recovery helper -/

/-- Model of `_safe_extract_json` in `app/routes/resume.py`: raise on empty
text (None result), strip, try a direct parse, then slice from the first
brace to the last brace and try again, with a newline-flattening and
backtick-stripping retry; None models the raised ValueError. -/
def safeExtractJson (text0 : List Char) : Option Json :=
  if text0.isEmpty then none
  else
    let text := pyStrip text0
    match jsonLoads text with
    | some v => some v
    | none =>
      let s := pyFind text '{'
      let e := pyRfind text '}'
      if s ≠ -1 ∧ e ≠ -1 ∧ s < e then
        let candidate := pySliceNat text s.toNat (e.toNat + 1)
        match jsonLoads candidate with
        | some v => some v
        | none =>
          let cleaned := candidate.map fun c => if c = '\n' then ' ' else c
          let cleaned2 :=
            if cleaned.take 3 = [btick, btick, btick] then pyStripChar btick cleaned
            else cleaned
          jsonLoads cleaned2
      else none

/-- A model output consisting of a single well-formed JSON object wrapped in
a fenced code block: triple backticks, an optional language tag, a newline,
the object, a newline and the closing fence. -/
def fenceWrap (lang body : List Char) : List Char :=
  btick :: btick :: btick :: lang ++ '\n' :: body ++ '\n' :: btick :: btick :: [btick]

theorem safeExtractJson_direct {cs : List Char} {kvs : List (List Char × Json)}
    (h : jsonLoads cs = some (Json.obj kvs)) :
    safeExtractJson cs = some (Json.obj kvs) := by
  obtain ⟨w1, mid, w2, hdec, hw1, hw2, hcore⟩ := jsonLoads_obj_decomp h
  have hne : cs.isEmpty = false := by rw [hdec]; simp
  have hstrip : pyStrip cs = '{' :: mid ++ ['}'] := by
    rw [hdec]; exact pyStrip_ws_core hw1 hw2
  simp only [safeExtractJson, hne, Bool.false_eq_true, if_false, hstrip, hcore]

theorem safeExtractJson_fenceWrap {lang body : List Char}
    {kvs : List (List Char × Json)} (hlang : ∀ x ∈ lang, x ≠ '{')
    (h : jsonLoads body = some (Json.obj kvs)) :
    safeExtractJson (fenceWrap lang body) = some (Json.obj kvs) := by
  obtain ⟨w1, mid, w2, hdec, hw1, hw2, hcore⟩ := jsonLoads_obj_decomp h
  have hdecF : fenceWrap lang body =
      (btick :: btick :: btick :: lang ++ '\n' :: w1) ++
        ('{' :: mid ++ ['}']) ++ (w2 ++ '\n' :: btick :: btick :: [btick]) := by
    unfold fenceWrap
    rw [hdec]
    simp [List.append_assoc]
  have hne : (fenceWrap lang body).isEmpty = false := by
    unfold fenceWrap; rfl
  have hstripF : pyStrip (fenceWrap lang body) = fenceWrap lang body := by
    rw [show fenceWrap lang body =
        btick :: (btick :: btick :: lang ++ '\n' :: body ++ '\n' :: btick :: [btick]) ++
          [btick] from by unfold fenceWrap; simp]
    exact pyStrip_id (by decide) (by decide)
  have hnone : jsonLoads (fenceWrap lang body) = none := by
    unfold fenceWrap; exact jsonLoads_btick _
  have hPno : ∀ x ∈ (btick :: btick :: btick :: lang ++ '\n' :: w1), x ≠ '{' := by
    intro x hx
    simp only [List.mem_cons, List.mem_append] at hx
    rcases hx with (rfl | rfl | rfl | hx) | rfl | hx
    · decide
    · decide
    · decide
    · exact hlang x hx
    · decide
    · exact ne_of_class (hw1 x hx) (by decide)
  have hSno : ∀ x ∈ (w2 ++ '\n' :: btick :: btick :: [btick]), x ≠ '}' := by
    intro x hx
    simp only [List.mem_cons, List.mem_append, List.mem_singleton] at hx
    rcases hx with hx | rfl | rfl | rfl | rfl | h0
    · exact ne_of_class (hw2 x hx) (by decide)
    · decide
    · decide
    · decide
    · decide
    · exact absurd h0 (by simp)
  have hfind : pyFind (fenceWrap lang body) '{' =
      ((btick :: btick :: btick :: lang ++ '\n' :: w1).length : Int) := by
    unfold pyFind
    rw [show fenceWrap lang body =
        (btick :: btick :: btick :: lang ++ '\n' :: w1) ++
          '{' :: (mid ++ ['}'] ++ (w2 ++ '\n' :: btick :: btick :: [btick])) from by
      rw [hdecF]; simp [List.append_assoc]]
    rw [pyFindChar_first hPno]
  have hrfind : pyRfind (fenceWrap lang body) '}' =
      ((((btick :: btick :: btick :: lang ++ '\n' :: w1) ++ '{' :: mid).length : Nat) :
        Int) := by
    unfold pyRfind
    rw [show fenceWrap lang body =
        ((btick :: btick :: btick :: lang ++ '\n' :: w1) ++ '{' :: mid) ++
          '}' :: (w2 ++ '\n' :: btick :: btick :: [btick]) from by
      rw [hdecF]; simp [List.append_assoc]]
    rw [pyRfindChar_last hSno]
  have hslice : pySliceNat (fenceWrap lang body)
      (btick :: btick :: btick :: lang ++ '\n' :: w1).length
      ((btick :: btick :: btick :: lang ++ '\n' :: w1).length +
        ('{' :: mid ++ ['}']).length) = '{' :: mid ++ ['}'] := by
    rw [hdecF]; exact pySliceNat_extract
  simp only [safeExtractJson, hne, Bool.false_eq_true, if_false, hstripF, hnone,
    hfind, hrfind]
  rw [if_pos (by
    refine ⟨by omega, by omega, ?_⟩
    simp only [List.length_append, List.length_cons]
    omega)]
  simp only [Int.toNat_natCast]
  rw [show ((btick :: btick :: btick :: lang ++ '\n' :: w1) ++ '{' :: mid).length + 1 =
      (btick :: btick :: btick :: lang ++ '\n' :: w1).length +
        ('{' :: mid ++ ['}']).length from by
    simp only [List.length_append, List.length_cons, List.length_nil]; omega]
  rw [hslice, hcore]

/-! ## The shared markdown-fence cleanup in ai_utils -/

/-- Index of the first occurrence of a substring, if any. -/
def pyFindSubAux (pat : List Char) : List Char → Option Nat
  | [] => if pat.isPrefixOf ([] : List Char) then some 0 else none
  | c :: rest =>
    if pat.isPrefixOf (c :: rest) then some 0
    else (pyFindSubAux pat rest).map (· + 1)

/-- Index of the last occurrence of a substring, if any. -/
def pyRfindSubAux (pat : List Char) : List Char → Option Nat
  | [] => if pat.isPrefixOf ([] : List Char) then some 0 else none
  | c :: rest =>
    match pyRfindSubAux pat rest with
    | some i => some (i + 1)
    | none => if pat.isPrefixOf (c :: rest) then some 0 else none

/-- Python str.find for a substring: index or -1. -/
def pyFindSub (cs pat : List Char) : Int :=
  match pyFindSubAux pat cs with
  | some i => (i : Int)
  | none => -1

/-- Python str.rfind for a substring: index or -1. -/
def pyRfindSub (cs pat : List Char) : Int :=
  match pyRfindSubAux pat cs with
  | some i => (i : Int)
  | none => -1

/-- The markdown fence markers that the ai_utils cleanup looks for. -/
def fenceJson : List Char := "```json".toList

def fence3 : List Char := "```".toList

/-- Model of the response-cleaning block shared verbatim by
`generate_roadmap_content` and `analyze_resume` in `app/utils/ai_utils.py`
(strip, remove a markdown code block located by find/rfind, then slice
from the first brace to the last brace with no ordering check). -/
def cleanResp (r : List Char) : List Char :=
  let t := pyStrip r
  let t1 :=
    if pyFindSub t fenceJson ≠ -1 then
      let s := (pyFindSub t fenceJson).toNat + 7
      let e := pyRfindSub t fence3
      if (s : Int) < e then pyStrip (pySliceNat t s e.toNat) else t
    else if pyFindSub t fence3 ≠ -1 then
      let s := (pyFindSub t fence3).toNat + 3
      let e := pyRfindSub t fence3
      if (s : Int) < e then pyStrip (pySliceNat t s e.toNat) else t
    else t
  let fb := pyFind t1 '{'
  let lb := pyRfind t1 '}'
  if fb ≠ -1 ∧ lb ≠ -1 then pySliceNat t1 fb.toNat (lb.toNat + 1) else t1

/-- C2 counterexample: the model output `\x7b"a": "``` ```"\x7d` is a single
well-formed JSON object (not wrapped in any fence), yet the recovery step
used by `analyze_resume` / `generate_roadmap_content` in
`app/utils/ai_utils.py` mangles it to the empty string — the elif branch
takes the text between the first and last triple-backtick occurrences,
which here lie inside a string literal — so the reparse fails and the
adapter falls back instead of returning the direct parse of the object. -/
theorem c2_counterexample :
    jsonLoads ("\x7b\"a\": \"``` ```\"\x7d".toList) =
      some (Json.obj [(['a'], Json.str ("``` ```".toList))]) ∧
    cleanResp ("\x7b\"a\": \"``` ```\"\x7d".toList) = [] ∧
    jsonLoads (cleanResp ("\x7b\"a\": \"``` ```\"\x7d".toList)) = none := by
  refine ⟨by decide, by decide, by decide⟩

/-- C2 (amended): for the resume route's `_safe_extract_json` the claim
does hold — for every model output that is a single well-formed JSON
object, either bare or wrapped in a triple-backtick fence with a
language tag free of opening braces, the recovery returns exactly the
direct JSON parse of the unwrapped object. -/
theorem c2_amended {lang body : List Char} {kvs : List (List Char × Json)}
    (hlang : ∀ x ∈ lang, x ≠ '{')
    (hbody : jsonLoads body = some (Json.obj kvs)) :
    safeExtractJson body = some (Json.obj kvs) ∧
    safeExtractJson (fenceWrap lang body) = some (Json.obj kvs) :=
  ⟨safeExtractJson_direct hbody, safeExtractJson_fenceWrap hlang hbody⟩

theorem c2_amended_witness :
    safeExtractJson ("\x7b\"a\": 1\x7d".toList) =
      some (Json.obj [(['a'], Json.num ['1'])]) ∧
    safeExtractJson (fenceWrap ("json".toList) ("\x7b\"a\": 1\x7d".toList)) =
      some (Json.obj [(['a'], Json.num ['1'])]) :=
  c2_amended (by decide) (by decide)

/-! ## Feature adapters: resume analysis and roadmap generation -/

def strL (s : String) : List Char := s.toList

/-- Rendering of a Python int stored in a dict, as a JSON numeric literal. -/
def intToChars (i : Int) : List Char :=
  if i < 0 then '-' :: Nat.toDigits 10 i.natAbs else Nat.toDigits 10 i.natAbs

/-- Outcome of `generate_ai_response` as consumed by the adapters: the
success flag, the (stripped) response text, and the error tag. -/
structure AIResult where
  success : Bool
  response : List Char
  error : Option (List Char)

/-- The error tags that send `analyze_resume` to its first fallback. -/
def aiErrTriggers : List (Option (List Char)) :=
  [some (strL "safety_filter"), some (strL "generation_blocked"),
   some (strL "empty_response")]

/-- The hardcoded `simple_analysis` returned by `analyze_resume` when the
AI call fails or is filtered (match_score 65). -/
def simpleAnalysis65 : Json :=
  Json.obj
    [(strL "strengths", Json.arr
        [Json.str (strL "Resume includes relevant experience"),
         Json.str (strL "Clear structure and formatting")]),
     (strL "improvements", Json.arr
        [Json.str (strL "Consider adding more quantifiable achievements"),
         Json.str (strL "Include specific technical skills relevant to the role")]),
     (strL "match_score", Json.num (strL "65")),
     (strL "summary", Json.str (strL "Resume shows potential match with the role. Focus on highlighting specific achievements and relevant technical expertise."))]

/-- The hardcoded `simple_analysis` returned by `analyze_resume` when the
response cannot be parsed as JSON (match_score 60). -/
def simpleAnalysis60 : Json :=
  Json.obj
    [(strL "strengths", Json.arr [Json.str (strL "Resume reviewed")]),
     (strL "improvements", Json.arr
        [Json.str (strL "Consider adding more specific skills and achievements")]),
     (strL "match_score", Json.num (strL "60")),
     (strL "summary", Json.str (strL "Resume analysis completed with basic evaluation."))]

/-- Append a default entry unless the key is already present (the
`if key not in analysis: analysis[key] = default` lines). -/
def ensureKey (kvs : List (List Char × Json)) (k : List Char) (v : Json) :
    List (List Char × Json) :=
  if kvs.any (fun p => p.1 == k) then kvs else kvs ++ [(k, v)]

/-- The ensure-required-fields block of `analyze_resume`. Python's `in`
is key lookup on a dict, element membership on a list and substring test
on a string; the subsequent item assignment raises TypeError (modelled as
none) on anything that is not a dict. -/
def ensureKeys : Json → Option Json
  | Json.obj kvs =>
    some (Json.obj
      (ensureKey
        (ensureKey
          (ensureKey
            (ensureKey kvs (strL "strengths") (Json.arr []))
            (strL "improvements") (Json.arr []))
          (strL "match_score") (Json.num (strL "50")))
        (strL "summary") (Json.str (strL "Analysis completed"))))
  | Json.arr xs =>
    if [strL "strengths", strL "improvements", strL "match_score",
        strL "summary"].all (fun k => xs.any (fun j => j == Json.str k)) then
      some (Json.arr xs)
    else none
  | Json.str s =>
    if [strL "strengths", strL "improvements", strL "match_score",
        strL "summary"].all (fun k => decide (pyFindSub s k ≠ -1)) then
      some (Json.str s)
    else none
  | _ => none

/-- Model of `analyze_resume` in `app/utils/ai_utils.py` applied to the
outcome of the AI call: the returned analysis value, or none when the
function raises. -/
def analyze_resume (r : AIResult) : Option Json :=
  if r.success = false ∨ r.error ∈ aiErrTriggers then some simpleAnalysis65
  else
    match jsonLoads (cleanResp r.response) with
    | some a => ensureKeys a
    | none => some simpleAnalysis60

/-- The hardcoded `simple_roadmap` fallback of `generate_roadmap_content`. -/
def simpleRoadmap (goal : List Char) (dw : Int) : Json :=
  Json.obj
    [(strL "title", Json.str goal),
     (strL "description", Json.str (strL "Learning path for " ++ goal)),
     (strL "duration_weeks", Json.num (intToChars dw)),
     (strL "nodes", Json.arr
        [Json.obj
           [(strL "id", Json.str (strL "start")),
            (strL "title", Json.str (strL "Getting Started")),
            (strL "description", Json.str (strL "Begin learning " ++ goal)),
            (strL "week", Json.num (intToChars 1)),
            (strL "resources", Json.arr [Json.str (strL "Online tutorials")]),
            (strL "skills", Json.arr [Json.str (strL "Basics")])],
         Json.obj
           [(strL "id", Json.str (strL "intermediate")),
            (strL "title", Json.str (strL "Building Skills")),
            (strL "description", Json.str (strL "Develop core competencies")),
            (strL "week", Json.num (intToChars (Int.fdiv dw 2))),
            (strL "resources", Json.arr [Json.str (strL "Practice projects")]),
            (strL "skills", Json.arr [Json.str (strL "Intermediate")])],
         Json.obj
           [(strL "id", Json.str (strL "advanced")),
            (strL "title", Json.str (strL "Advanced Topics")),
            (strL "description", Json.str (strL "Master advanced concepts")),
            (strL "week", Json.num (intToChars dw)),
            (strL "resources", Json.arr [Json.str (strL "Advanced courses")]),
            (strL "skills", Json.arr [Json.str (strL "Advanced")])]]),
     (strL "edges", Json.arr
        [Json.obj [(strL "from", Json.str (strL "start")),
                   (strL "to", Json.str (strL "intermediate"))],
         Json.obj [(strL "from", Json.str (strL "intermediate")),
                   (strL "to", Json.str (strL "advanced"))]])]

/-- Model of `generate_roadmap_content` in `app/utils/ai_utils.py` applied
to the outcome of the AI call: the roadmap value returned, or none when
the function raises (the line-434 raise reached whenever the AI call did
not succeed). -/
def generate_roadmap_content (goal : List Char) (dw : Int) (r : AIResult) :
    Option Json :=
  if r.success then
    match jsonLoads (cleanResp r.response) with
    | some roadmap => some roadmap
    | none => some (simpleRoadmap goal dw)
  else none

/-- The key list of an analysis object. -/
def keysOf : Json → Option (List (List Char))
  | Json.obj kvs => some (kvs.map Prod.fst)
  | _ => none

/-- Dict lookup on a JSON object value. -/
def lookupKey (j : Json) (k : List Char) : Option Json :=
  match j with
  | Json.obj kvs =>
    match kvs.find? (fun p => p.1 == k) with
    | some p => some p.2
    | none => none
  | _ => none

/-- Number of entries under the "nodes" key of a roadmap value. -/
def nodesCount (j : Json) : Option Nat :=
  match lookupKey j (strL "nodes") with
  | some (Json.arr xs) => some xs.length
  | _ => none

/-- C1 counterexample: when the model output is empty (the AI layer reports
error tag empty_response with success False), `generate_roadmap_content`
does not return its 3-node placeholder fallback: it reaches the raise on
line 434 of `app/utils/ai_utils.py` (modelled as none) and so raises for an
empty model output. -/
theorem c1_counterexample :
    generate_roadmap_content (strL "Python") 12
      (AIResult.mk false [] (some (strL "empty_response"))) = none := by decide

/-- C1 (amended): for every AI outcome whose response text fails JSON
recovery, `analyze_resume` never raises and returns one of its two
hardcoded fallbacks, both of which carry exactly the four canonical keys
with match_score 65 resp. 60 (inside [0,100]); `generate_roadmap_content`
returns its 3-node placeholder only when the AI call itself succeeded, and
raises (none) whenever it did not. -/
theorem c1_amended (goal : List Char) (dw : Int) (r : AIResult)
    (hfail : jsonLoads (cleanResp r.response) = none) :
    (analyze_resume r = some simpleAnalysis65 ∨
      analyze_resume r = some simpleAnalysis60) ∧
    generate_roadmap_content goal dw r =
      (if r.success = true then some (simpleRoadmap goal dw) else none) ∧
    keysOf simpleAnalysis65 =
      some [strL "strengths", strL "improvements", strL "match_score",
        strL "summary"] ∧
    keysOf simpleAnalysis60 =
      some [strL "strengths", strL "improvements", strL "match_score",
        strL "summary"] ∧
    lookupKey simpleAnalysis65 (strL "match_score") =
      some (Json.num (strL "65")) ∧
    lookupKey simpleAnalysis60 (strL "match_score") =
      some (Json.num (strL "60")) ∧
    nodesCount (simpleRoadmap goal dw) = some 3 := by
  refine ⟨?_, ?_, by decide, by decide, by decide, by decide, by rfl⟩
  · by_cases h : r.success = false ∨ r.error ∈ aiErrTriggers
    · exact Or.inl (by simp [analyze_resume, h])
    · exact Or.inr (by simp [analyze_resume, h, hfail])
  · cases hs : r.success with
    | false => simp [generate_roadmap_content, hs]
    | true => simp [generate_roadmap_content, hs, hfail]

theorem c1_amended_witness :
    (analyze_resume (AIResult.mk true (strL "not json") none) =
        some simpleAnalysis65 ∨
      analyze_resume (AIResult.mk true (strL "not json") none) =
        some simpleAnalysis60) ∧
    generate_roadmap_content (strL "Rust") 12
        (AIResult.mk true (strL "not json") none) =
      (if (AIResult.mk true (strL "not json") none).success = true then
        some (simpleRoadmap (strL "Rust") 12) else none) ∧
    keysOf simpleAnalysis65 =
      some [strL "strengths", strL "improvements", strL "match_score",
        strL "summary"] ∧
    keysOf simpleAnalysis60 =
      some [strL "strengths", strL "improvements", strL "match_score",
        strL "summary"] ∧
    lookupKey simpleAnalysis65 (strL "match_score") =
      some (Json.num (strL "65")) ∧
    lookupKey simpleAnalysis60 (strL "match_score") =
      some (Json.num (strL "60")) ∧
    nodesCount (simpleRoadmap (strL "Rust") 12) = some 3 :=
  c1_amended (strL "Rust") 12 (AIResult.mk true (strL "not json") none) (by decide)

/-! ## fixJsonSyntax -/

/-- One left-to-right re.sub scan as used by all three substitutions of
`fix_json_syntax`: each pattern is a trigger character, optional
whitespace and a head character tested together with the whitespace run;
on a match the replacement emit is produced and scanning resumes after
the match, otherwise the current character is kept. Fuel bounds the
recursion; it is always called with the length of the list. -/
def scanSub (trig : Char) (cond : Char → List Char → Bool)
    (emit : List Char → Char → List Char) : Nat → List Char → List Char
  | 0, cs => cs
  | _ + 1, [] => []
  | f + 1, c :: rest =>
    if c = trig then
      match rest.dropWhile isPyWs with
      | b :: r2 =>
        if cond b (rest.takeWhile isPyWs) then
          emit (rest.takeWhile isPyWs) b ++ scanSub trig cond emit f r2
        else c :: scanSub trig cond emit f rest
      | [] => c :: scanSub trig cond emit f rest
    else c :: scanSub trig cond emit f rest

/-- A scan at the fuel `fix_json_syntax` always supplies. -/
def scanSubRun (trig : Char) (cond : Char → List Char → Bool)
    (emit : List Char → Char → List Char) (cs : List Char) : List Char :=
  scanSub trig cond emit cs.length cs

/-- First repair of `fix_json_syntax`: the substitution deleting a comma
followed by optional whitespace and a closing brace or bracket. -/
def sub1 (cs : List Char) : List Char :=
  scanSubRun ',' (fun b _ => b = '}' || b = ']') (fun w b => w ++ [b]) cs

/-- Second repair of `fix_json_syntax`: the substitution replacing a
closing brace, optional whitespace and an opening brace by the three
characters brace, comma, brace. -/
def sub2 (cs : List Char) : List Char :=
  scanSubRun '}' (fun b _ => b = '{') (fun _ _ => ['}', ',', '{']) cs

/-- Third repair of `fix_json_syntax`: the substitution replacing a
double quote, whitespace containing a newline, and a double quote by
quote, comma, newline, quote. -/
def sub3 (cs : List Char) : List Char :=
  scanSubRun '"' (fun b w => b = '"' && w.contains '\n')
    (fun _ _ => ['"', ',', '\n', '"']) cs

/-- Last step of `fix_json_syntax`: drop control characters other than
newline, carriage return and tab. -/
def ctrlFilter (cs : List Char) : List Char :=
  cs.filter (fun c => 32 ≤ c.toNat || c = '\n' || c = '\r' || c = '\t')

/-- Model of `fix_json_syntax` in `app/utils/ai_utils.py`: the three
regex substitutions followed by the control-character filter. -/
def fixJsonSyntax (cs : List Char) : List Char :=
  ctrlFilter (sub3 (sub2 (sub1 cs)))

theorem dropWhile_le_length (p : Char → Bool) (l : List Char) :
    (l.dropWhile p).length ≤ l.length := by
  induction l with
  | nil => simp
  | cons c t ih =>
    rw [List.dropWhile_cons]
    split
    · exact Nat.le_trans ih (by simp)
    · simp

theorem dropWhile_nil_all {p : Char → Bool} {l : List Char}
    (h : l.dropWhile p = []) : ∀ x ∈ l, p x = true := by
  induction l with
  | nil => simp
  | cons c t ih =>
    rw [List.dropWhile_cons] at h
    split at h
    · rename_i hc
      intro x hx
      rcases List.mem_cons.mp hx with rfl | hx
      · exact hc
      · exact ih h x hx
    · exact absurd h (by simp)

theorem dropWhile_append_all {p : Char → Bool} {a : List Char} (x : List Char)
    (h : ∀ y ∈ a, p y = true) :
    (a ++ x).dropWhile p = x.dropWhile p := by
  induction a with
  | nil => simp
  | cons c t ih =>
    rw [List.cons_append, List.dropWhile_cons, if_pos (h c (by simp))]
    exact ih (fun y hy => h y (by simp [hy]))

theorem dropWhile_append_pos {p : Char → Bool} {a : List Char} {c : Char}
    {t : List Char} (x : List Char) (h : a.dropWhile p = c :: t) :
    (a ++ x).dropWhile p = c :: (t ++ x) := by
  induction a with
  | nil => exact absurd h (by simp)
  | cons d ds ih =>
    rw [List.dropWhile_cons] at h
    rw [List.cons_append, List.dropWhile_cons]
    split at h
    · rename_i hd
      rw [if_pos hd]
      exact ih h
    · rename_i hd
      rw [if_neg hd]
      simp only [List.cons.injEq] at h
      simp [h.1, h.2]

theorem takeWhile_append_pos {p : Char → Bool} {a : List Char} {c : Char}
    {t : List Char} (x : List Char) (h : a.dropWhile p = c :: t) :
    (a ++ x).takeWhile p = a.takeWhile p := by
  induction a with
  | nil => exact absurd h (by simp)
  | cons d ds ih =>
    rw [List.dropWhile_cons] at h
    rw [List.cons_append, List.takeWhile_cons, List.takeWhile_cons]
    split at h
    · rename_i hd
      rw [if_pos hd, if_pos hd, ih h]
    · rename_i hd
      rw [if_neg hd, if_neg hd]

theorem scanSub_irrel (trig : Char) (cond : Char → List Char → Bool)
    (emit : List Char → Char → List Char) :
    ∀ f : Nat, ∀ cs : List Char, ∀ g : Nat, cs.length ≤ f → cs.length ≤ g →
      scanSub trig cond emit f cs = scanSub trig cond emit g cs := by
  intro f
  induction f with
  | zero =>
    intro cs g hf _
    have : cs = [] := List.length_eq_zero.mp (Nat.le_zero.mp hf)
    subst this
    cases g <;> rfl
  | succ f ih =>
    intro cs g hf hg
    cases cs with
    | nil => cases g <;> rfl
    | cons c rest =>
      cases g with
      | zero => simp at hg
      | succ g2 =>
        simp only [List.length_cons, Nat.add_le_add_iff_right] at hf hg
        simp only [scanSub]
        by_cases hc : c = trig
        · rw [if_pos hc, if_pos hc]
          rcases hd : rest.dropWhile isPyWs with _ | ⟨b, r2⟩
          · dsimp only
            rw [ih rest g2 hf hg]
          · dsimp only
            have hlen : r2.length + 1 ≤ rest.length := by
              have := dropWhile_le_length isPyWs rest
              rw [hd] at this
              simpa using this
            by_cases hcond : cond b (rest.takeWhile isPyWs) = true
            · rw [if_pos hcond, if_pos hcond,
                ih r2 g2 (by omega) (by omega)]
            · rw [if_neg hcond, if_neg hcond, ih rest g2 hf hg]
        · rw [if_neg hc, if_neg hc, ih rest g2 hf hg]

theorem scanSubRun_cons_ne (trig : Char) (cond : Char → List Char → Bool)
    (emit : List Char → Char → List Char) {c : Char} (hc : c ≠ trig)
    (xs : List Char) :
    scanSubRun trig cond emit (c :: xs) = c :: scanSubRun trig cond emit xs := by
  unfold scanSubRun
  simp only [List.length_cons, scanSub]
  rw [if_neg hc]

theorem scanSubRun_nomatch_nil (trig : Char) (cond : Char → List Char → Bool)
    (emit : List Char → Char → List Char) {xs : List Char}
    (h : xs.dropWhile isPyWs = []) :
    scanSubRun trig cond emit (trig :: xs) =
      trig :: scanSubRun trig cond emit xs := by
  unfold scanSubRun
  simp only [List.length_cons, scanSub]
  rw [if_true, h]

theorem scanSubRun_nomatch_head (trig : Char) (cond : Char → List Char → Bool)
    (emit : List Char → Char → List Char) {xs : List Char} {b : Char}
    {r2 : List Char} (h : xs.dropWhile isPyWs = b :: r2)
    (hcond : cond b (xs.takeWhile isPyWs) = false) :
    scanSubRun trig cond emit (trig :: xs) =
      trig :: scanSubRun trig cond emit xs := by
  unfold scanSubRun
  simp only [List.length_cons, scanSub]
  rw [if_true, h]
  dsimp only
  rw [if_neg (by rw [hcond]; simp)]

theorem scanSubRun_match (trig : Char) (cond : Char → List Char → Bool)
    (emit : List Char → Char → List Char) {w : List Char} {b : Char}
    (r : List Char) (hw : ∀ x ∈ w, isPyWs x = true) (hb : isPyWs b = false)
    (hcond : cond b w = true) :
    scanSubRun trig cond emit (trig :: w ++ b :: r) =
      emit w b ++ scanSubRun trig cond emit r := by
  unfold scanSubRun
  have htk := (takeWhile_all_append (p := isPyWs) (u := w) (r := b :: r) hw
    (Or.inr ⟨b, r, rfl, hb⟩)).1
  have hdp := (takeWhile_all_append (p := isPyWs) (u := w) (r := b :: r) hw
    (Or.inr ⟨b, r, rfl, hb⟩)).2
  simp only [List.length_cons, scanSub, List.append_eq]
  rw [if_true, hdp]
  dsimp only
  rw [htk, if_pos hcond]
  rw [scanSub_irrel trig cond emit ((w ++ b :: r).length) r r.length
    (by simp only [List.length_append, List.length_cons]; omega) (Nat.le_refl _)]

theorem scanSubRun_pass (trig : Char) (cond : Char → List Char → Bool)
    (emit : List Char → Char → List Char) {v : List Char}
    (hv : ∀ x ∈ v, x ≠ trig) (r : List Char) :
    scanSubRun trig cond emit (v ++ r) = v ++ scanSubRun trig cond emit r := by
  induction v with
  | nil => simp
  | cons c t ih =>
    rw [List.cons_append, scanSubRun_cons_ne trig cond emit (hv c (by simp)),
      ih (fun x hx => hv x (by simp [hx]))]
    rfl

theorem sub1_insert {w : List Char} {b : Char} {r : List Char}
    (hw : ∀ x ∈ w, isPyWs x = true) (hb : b = '}' ∨ b = ']') :
    ∀ u : List Char, sub1 (u ++ w ++ b :: r) = u ++ w ++ b :: r →
      sub1 (u ++ ',' :: w ++ b :: r) = u ++ w ++ b :: r := by
  have hbws : isPyWs b = false := by rcases hb with rfl | rfl <;> decide
  have hbne : b ≠ ',' := by rcases hb with rfl | rfl <;> decide
  have hcond1 : (decide (b = '}') || decide (b = ']')) = true := by
    rcases hb with rfl | rfl <;> simp
  intro u
  induction u with
  | nil =>
    intro hinv
    simp only [List.nil_append, sub1] at hinv ⊢
    have hvne : ∀ x ∈ w ++ [b], x ≠ ',' := by
      intro x hx
      rcases List.mem_append.mp hx with hx | hx
      · exact ne_of_class (hw x hx) (by decide)
      · rcases List.mem_singleton.mp hx with rfl
        exact hbne
    have hps := scanSubRun_pass ',' (fun x _ => x = '}' || x = ']')
      (fun v x => v ++ [x]) hvne r
    rw [show w ++ b :: r = (w ++ [b]) ++ r from by simp, hps] at hinv
    have hr := List.append_cancel_left hinv
    rw [scanSubRun_match ',' (fun x _ => x = '}' || x = ']')
      (fun v x => v ++ [x]) r hw hbws hcond1, hr]
    simp
  | cons c u2 ih =>
    intro hinv
    simp only [List.cons_append, List.append_assoc] at hinv ih ⊢
    by_cases hc : c = ','
    · subst hc
      simp only [sub1] at hinv ih ⊢
      rcases hdp : u2.dropWhile isPyWs with _ | ⟨c2, rest2⟩
      · exfalso
        have huws : ∀ x ∈ u2, isPyWs x = true := dropWhile_nil_all hdp
        have huw : ∀ x ∈ u2 ++ w, isPyWs x = true := by
          intro x hx
          rcases List.mem_append.mp hx with hx | hx
          · exact huws x hx
          · exact hw x hx
        have hm := scanSubRun_match ',' (fun x _ => x = '}' || x = ']')
          (fun v x => v ++ [x]) r huw hbws hcond1
        simp only [List.cons_append, List.append_assoc] at hm
        rw [hm] at hinv
        rcases u2 with _ | ⟨y, u2t⟩
        · simp only [List.nil_append] at hinv
          rcases w with _ | ⟨z, wt⟩
          · simp only [List.nil_append, List.singleton_append,
              List.cons.injEq] at hinv
            exact hbne hinv.1
          · simp only [List.cons_append, List.cons.injEq] at hinv
            have hz : isPyWs z = true := hw z (by simp)
            rw [hinv.1] at hz
            exact absurd hz (by decide)
        · simp only [List.cons_append, List.cons.injEq] at hinv
          have hy : isPyWs y = true := huws y (by simp)
          rw [hinv.1] at hy
          exact absurd hy (by decide)
      · have hTdrop : (u2 ++ (',' :: (w ++ b :: r))).dropWhile isPyWs =
            c2 :: (rest2 ++ (',' :: (w ++ b :: r))) :=
          dropWhile_append_pos _ hdp
        have hRdrop : (u2 ++ (w ++ b :: r)).dropWhile isPyWs =
            c2 :: (rest2 ++ (w ++ b :: r)) :=
          dropWhile_append_pos _ hdp
        have hc2ws : isPyWs c2 = false := head_dropWhile_false hdp
        by_cases hcb : c2 = '}' ∨ c2 = ']'
        · exfalso
          have hcondc2 : (decide (c2 = '}') || decide (c2 = ']')) = true := by
            rcases hcb with rfl | rfl <;> simp
          have htkws : ∀ x ∈ u2.takeWhile isPyWs, isPyWs x = true := by
            intro x hx
            exact List.mem_takeWhile_imp hx
          have hu2 : u2 = u2.takeWhile isPyWs ++ c2 :: rest2 := by
            conv_lhs => rw [← List.takeWhile_append_dropWhile (p := isPyWs)
              (l := u2)]
            rw [hdp]
          have hm := scanSubRun_match ',' (fun x _ => x = '}' || x = ']')
            (fun v x => v ++ [x]) (rest2 ++ (w ++ b :: r)) htkws hc2ws hcondc2
          simp only [List.cons_append, List.append_assoc] at hm
          rw [show u2 ++ (w ++ b :: r) =
              u2.takeWhile isPyWs ++ (c2 :: (rest2 ++ (w ++ b :: r))) from by
            conv_lhs => rw [hu2]
            simp [List.append_assoc]] at hinv
          rw [hm] at hinv
          rcases htkc : u2.takeWhile isPyWs with _ | ⟨y, ys⟩
          · rw [htkc] at hinv
            simp only [List.nil_append, List.singleton_append,
              List.cons.injEq] at hinv
            rcases hcb with rfl | rfl
            · exact absurd hinv.1 (by decide)
            · exact absurd hinv.1 (by decide)
          · rw [htkc] at hinv
            simp only [List.cons_append, List.cons.injEq] at hinv
            have hy : isPyWs y = true := htkws y (by rw [htkc]; simp)
            rw [hinv.1] at hy
            exact absurd hy (by decide)
        · have hcondF : (decide (c2 = '}') || decide (c2 = ']')) = false := by
            push_neg at hcb
            simp [hcb.1, hcb.2]
          have hnmT := scanSubRun_nomatch_head ','
            (fun x _ => x = '}' || x = ']') (fun v x => v ++ [x]) hTdrop hcondF
          have hnmR := scanSubRun_nomatch_head ','
            (fun x _ => x = '}' || x = ']') (fun v x => v ++ [x]) hRdrop hcondF
          rw [hnmR] at hinv
          simp only [List.cons.injEq, true_and] at hinv
          rw [hnmT, ih hinv]
    · simp only [sub1] at hinv ih ⊢
      rw [scanSubRun_cons_ne ',' (fun x _ => x = '}' || x = ']')
        (fun v x => v ++ [x]) hc] at hinv ⊢
      simp only [List.cons.injEq, true_and] at hinv
      rw [ih hinv]

/-- C5 counterexample: the document `\x7b"a":",\x7d"\x7d` is well formed, and
inserting a single trailing comma before its closing brace gives
`\x7b"a":",\x7d",\x7d`; but `fix_json_syntax` also rewrites the `,\x7d` that
lies inside the string literal, so the repaired text parses to a different
value (the string "\x7d") than the comma-free original (the string ",\x7d"). -/
theorem c5_counterexample :
    ("\x7b\"a\":\",\x7d\",\x7d".toList =
      "\x7b\"a\":\",\x7d\"".toList ++ ',' :: ['\x7d']) ∧
    ("\x7b\"a\":\",\x7d\"\x7d".toList =
      "\x7b\"a\":\",\x7d\"".toList ++ ['\x7d']) ∧
    jsonLoads ("\x7b\"a\":\",\x7d\"\x7d".toList) =
      some (Json.obj [(['a'], Json.str [',', '\x7d'])]) ∧
    jsonLoads (fixJsonSyntax ("\x7b\"a\":\",\x7d\",\x7d".toList)) =
      some (Json.obj [(['a'], Json.str ['\x7d'])]) ∧
    jsonLoads (fixJsonSyntax ("\x7b\"a\":\",\x7d\",\x7d".toList)) ≠
      jsonLoads ("\x7b\"a\":\",\x7d\"\x7d".toList) :=
  ⟨by decide, by decide, by decide, by decide, by decide⟩

/-- C5 (amended): whenever the comma-free document is itself untouched by
every repair pass of `fix_json_syntax` (no trailing-comma pattern, no
adjacent-braces pattern, no quote-newline-quote pattern, no control
characters), inserting one trailing comma before a closing brace or
bracket is exactly undone by `fix_json_syntax`, so the repaired text
reparses to the parse of the comma-free version. -/
theorem c5_amended {u w r : List Char} {b : Char} (hw : ∀ x ∈ w, isPyWs x = true)
    (hb : b = '}' ∨ b = ']')
    (h1 : sub1 (u ++ w ++ b :: r) = u ++ w ++ b :: r)
    (h2 : sub2 (u ++ w ++ b :: r) = u ++ w ++ b :: r)
    (h3 : sub3 (u ++ w ++ b :: r) = u ++ w ++ b :: r)
    (h4 : ctrlFilter (u ++ w ++ b :: r) = u ++ w ++ b :: r) :
    fixJsonSyntax (u ++ ',' :: w ++ b :: r) = u ++ w ++ b :: r ∧
    jsonLoads (fixJsonSyntax (u ++ ',' :: w ++ b :: r)) =
      jsonLoads (u ++ w ++ b :: r) := by
  have hfix : fixJsonSyntax (u ++ ',' :: w ++ b :: r) = u ++ w ++ b :: r := by
    unfold fixJsonSyntax
    rw [sub1_insert hw hb u h1, h2, h3, h4]
  exact ⟨hfix, by rw [hfix]⟩

theorem c5_amended_witness :
    fixJsonSyntax ("\x7b\"a\": 1".toList ++ ',' :: [] ++ '\x7d' :: []) =
      "\x7b\"a\": 1".toList ++ [] ++ '\x7d' :: [] ∧
    jsonLoads (fixJsonSyntax ("\x7b\"a\": 1".toList ++ ',' :: [] ++ '\x7d' :: [])) =
      jsonLoads ("\x7b\"a\": 1".toList ++ [] ++ '\x7d' :: []) :=
  c5_amended (by simp) (Or.inl rfl) (by decide) (by decide) (by decide) (by decide)

/-! ## Score coercion in the resume route -/

/-- A digit or an underscore, the characters a Python float literal run
may contain. -/
def digUnd (c : Char) : Bool := jsonDigit c || c == '_'

def uokPairs : List Char → Bool
  | a :: b :: rest => (!(a == '_' && b == '_')) && uokPairs (b :: rest)
  | _ => true

/-- Validity of underscores in a digit run (only between digits), and the
run with underscores removed. -/
def stripU (s : List Char) : Option (List Char) :=
  if uokPairs s && s.head? != some '_' && s.getLast? != some '_' then
    some (s.filter (fun c => c != '_'))
  else none

def digitsVal (s : List Char) : Nat :=
  s.foldl (fun acc c => acc * 10 + (c.toNat - 48)) 0

def lowerEq (s : List Char) (t : String) : Bool :=
  (s.map Char.toLower) == t.toList

/-- Assemble the value of a parsed float literal; floats are modelled as
exact rationals, with the IEEE overflow-to-infinity cutoff (2^1024 minus
half an ulp) mapped to none since a non-finite float makes the round()
call in to_score raise. -/
def pyFloatMk (sgn : Bool) (ip fp : List Char) (eneg : Bool) (ed : List Char) :
    Option Rat :=
  if ip = [] ∧ fp = [] then none
  else
    match stripU ip, stripU fp, stripU ed with
    | some ipd, some fpd, some edd =>
      if ipd = [] ∧ fpd = [] then none
      else
        let numN : Nat := digitsVal ipd * 10 ^ fpd.length + digitsVal fpd
        let e := digitsVal edd
        let num : Nat := if eneg then numN else numN * 10 ^ e
        let den : Nat := if eneg then 10 ^ fpd.length * 10 ^ e
          else 10 ^ fpd.length
        if (2 ^ 1024 - 2 ^ 970 : Nat) * den ≤ num then none
        else some (mkRat (if sgn then -(num : Int) else (num : Int)) den)
    | _, _, _ => none

/-- Model of Python float(str): strip whitespace, optional sign, inf/nan,
integer part, fractional part and exponent, with underscores allowed
between digits; none models both a ValueError and a non-finite value. -/
def pyFloatStr (s0 : List Char) : Option Rat :=
  let s1 := pyStrip s0
  let sgn := s1.head? = some '-'
  let s := if s1.head? = some '-' ∨ s1.head? = some '+' then s1.tail else s1
  if lowerEq s "inf" || lowerEq s "infinity" || lowerEq s "nan" then none
  else
    let ip := s.takeWhile digUnd
    let r1 := s.dropWhile digUnd
    let fprest : List Char × List Char :=
      match r1 with
      | '.' :: t => (t.takeWhile digUnd, t.dropWhile digUnd)
      | _ => ([], r1)
    let fp := fprest.1
    match fprest.2 with
    | [] => pyFloatMk sgn ip fp false []
    | e :: t =>
      if e = 'e' ∨ e = 'E' then
        let est : Bool × List Char :=
          match t with
          | '+' :: t2 => (false, t2)
          | '-' :: t2 => (true, t2)
          | t2 => (false, t2)
        let ed := est.2.takeWhile digUnd
        if est.2.dropWhile digUnd = [] ∧ ed ≠ [] then
          pyFloatMk sgn ip fp est.1 ed
        else none
      else none

/-- Python round() on a float with no digit argument: round half to even,
computed on the reduced numerator and denominator. -/
def bankersRound (q : Rat) : Int :=
  let f : Int := q.num.fdiv (q.den : Int)
  let rem : Int := q.num - f * (q.den : Int)
  if 2 * rem < (q.den : Int) then f
  else if (q.den : Int) < 2 * rem then f + 1
  else if f % 2 = 0 then f else f + 1

/-- The run-time type of a value handed to to_score out of the parsed
analysis object. -/
inductive ScoreVal where
  | vInt (i : Int)
  | vFloat (q : Rat)
  | vStr (s : List Char)
  | vBool (b : Bool)
  | vNone
  | vList
  | vDict

/-- Model of to_score inside `_normalize_analysis` in
`app/routes/resume.py`: strip one trailing percent sign from a string,
convert with float(), round half-to-even, clamp to [0, 100]; any raise
(None, list, dict, unparseable string, overflow) yields 0. A bool reaches
float() as 0 or 1; an int overflows float() at the same cutoff as a
string literal. -/
def to_score (v : ScoreVal) : Int :=
  match v with
  | .vInt i =>
    if (2 ^ 1024 - 2 ^ 970 : Nat) ≤ i.natAbs then 0
    else max 0 (min 100 i)
  | .vFloat q => max 0 (min 100 (bankersRound q))
  | .vBool b => max 0 (min 100 (if b then 1 else 0))
  | .vStr s =>
    let s2 := if s.getLast? = some '%' then s.dropLast else s
    match pyFloatStr s2 with
    | some q => max 0 (min 100 (bankersRound q))
    | none => 0
  | .vNone => 0
  | .vList => 0
  | .vDict => 0

/-- C6 counterexample: the plain numeric string "85" has no trailing
percent sign, yet float() accepts it, so to_score returns 85 rather than
the 0 the claim prescribes for inputs outside int / float / percent
string. -/
theorem c6_counterexample :
    to_score (ScoreVal.vStr (strL "85")) = 85 ∧
    to_score (ScoreVal.vStr (strL "85")) ≠ 0 :=
  ⟨by decide, by decide⟩

/-- C6 (amended): to_score always lands in [0, 100] — for every run-time
input, including the failure default 0 — and the documented examples
hold: "150%" maps to 100 and -5 maps to 0; None, lists and dicts (raising
inputs) map to 0. Plain numeric strings without a percent sign are also
accepted, not sent to 0. -/
theorem c6_amended (v : ScoreVal) :
    0 ≤ to_score v ∧ to_score v ≤ 100 ∧
    to_score (ScoreVal.vStr (strL "150%")) = 100 ∧
    to_score (ScoreVal.vInt (-5)) = 0 ∧
    to_score ScoreVal.vNone = 0 ∧ to_score ScoreVal.vList = 0 ∧
    to_score ScoreVal.vDict = 0 := by
  have hcl : ∀ x : Int, 0 ≤ max 0 (min 100 x) ∧ max 0 (min 100 x) ≤ 100 := by
    intro x
    exact ⟨le_max_left 0 _, max_le (by norm_num) (min_le_left _ _)⟩
  have hrange : 0 ≤ to_score v ∧ to_score v ≤ 100 := by
    cases v with
    | vInt i =>
      simp only [to_score]
      split
      · exact ⟨le_refl 0, by norm_num⟩
      · exact hcl i
    | vFloat q => exact hcl _
    | vBool b =>
      cases b
      · exact hcl _
      · exact hcl _
    | vStr s =>
      simp only [to_score]
      rcases hq : pyFloatStr (if s.getLast? = some '%' then s.dropLast else s)
        with _ | q
      · exact ⟨le_refl 0, by norm_num⟩
      · exact hcl _
    | vNone => exact ⟨by decide, by decide⟩
    | vList => exact ⟨by decide, by decide⟩
    | vDict => exact ⟨by decide, by decide⟩
  exact ⟨hrange.1, hrange.2, by decide, by decide, by decide, by decide,
    by decide⟩

/-! ## Quiz submission scoring -/

/-- A stored quiz question as `submit_quiz` reads it: the four keys it
accesses. Ids, answers and options are arbitrary JSON values. -/
structure Question where
  qid : Json
  question : Json
  options : Json
  correctAnswer : Json
deriving DecidableEq

/-- One entry of the feedback list built by `submit_quiz`. -/
structure Feedback where
  question_id : Json
  question : Json
  user_answer : Json
  correct_answer : Json
  is_correct : Bool
  options : Json
deriving DecidableEq

/-- The outcome of a scored submission. -/
structure SubmitResult where
  score : Nat
  total : Nat
  percentage : Int
  feedback : List Feedback
deriving DecidableEq

/-- A finite Python float value or an infinity. -/
inductive PyNum where
  | posInf
  | negInf
  | fin (q : Rat)
deriving DecidableEq

/-- Numeric value of a JSON number literal as json.loads produces it:
NaN has no value (none) since it compares unequal to everything,
including itself; magnitudes at or past the binary64 overflow cutoff
become infinities, which do compare equal; finite values are exact
rationals. The literal grammar is the JSON one: optional minus, digits,
optional fraction, optional exponent, plus the NaN and Infinity
keywords. -/
def jsonNumVal (s : List Char) : Option PyNum :=
  if s = strL "NaN" then none
  else if s = strL "Infinity" then some PyNum.posInf
  else if s = strL "-Infinity" then some PyNum.negInf
  else
    let sgn := s.head? = some '-'
    let t := if s.head? = some '-' then s.tail else s
    let ip := t.takeWhile jsonDigit
    let r1 := t.dropWhile jsonDigit
    let fr : List Char × List Char :=
      match r1 with
      | '.' :: u => (u.takeWhile jsonDigit, u.dropWhile jsonDigit)
      | _ => ([], r1)
    let er : Bool × List Char :=
      match fr.2 with
      | 'e' :: '+' :: u => (false, u.takeWhile jsonDigit)
      | 'e' :: '-' :: u => (true, u.takeWhile jsonDigit)
      | 'e' :: u => (false, u.takeWhile jsonDigit)
      | 'E' :: '+' :: u => (false, u.takeWhile jsonDigit)
      | 'E' :: '-' :: u => (true, u.takeWhile jsonDigit)
      | 'E' :: u => (false, u.takeWhile jsonDigit)
      | _ => (false, [])
    let numN : Nat := digitsVal ip * 10 ^ fr.1.length + digitsVal fr.1
    let e := digitsVal er.2
    let num : Nat := if er.1 then numN else numN * 10 ^ e
    let den : Nat := if er.1 then 10 ^ fr.1.length * 10 ^ e
      else 10 ^ fr.1.length
    if (2 ^ 1024 - 2 ^ 970 : Nat) * den ≤ num then
      some (if sgn then PyNum.negInf else PyNum.posInf)
    else some (PyNum.fin (mkRat (if sgn then -(num : Int) else (num : Int)) den))

/-- What a JSON scalar compares as in Python: None, a string, or a
number — booleans fold into numbers since bool is a subclass of int. -/
inductive PyKey where
  | kNull
  | kStr (s : List Char)
  | kNum (v : PyNum)
deriving DecidableEq

/-- The comparison view of a scalar: none for the unhashable containers
and for NaN (hashable, but equal to nothing, itself included). -/
def keyView : Json → Option PyKey
  | Json.null => some PyKey.kNull
  | Json.str s => some (PyKey.kStr s)
  | Json.boolean b => some (PyKey.kNum (PyNum.fin (if b then 1 else 0)))
  | Json.num s => (jsonNumVal s).map PyKey.kNum
  | _ => none

/-- Python == restricted to scalar values, the comparison the dict
operations perform on keys: equality of comparison views, so 1, 1.0 and
True are all equal while NaN is unequal even to itself. -/
def keyEq (a b : Json) : Bool :=
  match keyView a, keyView b with
  | some x, some y => x == y
  | _, _ => false

/-- Hashability of a JSON value: lists and dicts are unhashable, and
using one as a dict key or lookup argument raises TypeError. -/
def hashable : Json → Bool
  | Json.arr _ => false
  | Json.obj _ => false
  | _ => true

mutual

/-- Structural size, a bound on nesting depth used as fuel. -/
def jsize : Json → Nat
  | .arr xs => 1 + jsizeList xs
  | .obj kvs => 1 + jsizeKvs kvs
  | _ => 1

def jsizeList : List Json → Nat
  | [] => 0
  | x :: t => jsize x + jsizeList t

def jsizeKvs : List (List Char × Json) → Nat
  | [] => 0
  | (_, v) :: t => jsize v + jsizeKvs t

end

/-- Python == on parsed JSON values, fuel-bounded by the nesting of the
left argument: scalars via the comparison view, lists elementwise, dicts
by key lookup with equal sizes. The identity shortcut of CPython's
comparisons never applies here because the two sides always come from
different parses. -/
def pyEqF : Nat → Json → Json → Bool
  | 0, _, _ => false
  | f + 1, Json.arr a, Json.arr b =>
    a.length == b.length && (a.zip b).all (fun p => pyEqF f p.1 p.2)
  | f + 1, Json.obj a, Json.obj b =>
    a.length == b.length && a.all (fun p =>
      match b.find? (fun q => q.1 == p.1) with
      | some q => pyEqF f p.2 q.2
      | none => false)
  | _ + 1, x, y => keyEq x y

def pyEq (a b : Json) : Bool := pyEqF (jsize a) a b

/-- Pairwise-distinct keys, the invariant of every real Python dict. -/
def keysNodup : List (List Char × Json) → Bool
  | [] => true
  | p :: t => !(t.any (fun q => q.1 == p.1)) && keysNodup t

mutual

/-- A value shaped like one a Python json.loads call can produce:
NaN-free and with pairwise-distinct keys in every object. -/
def pyWf : Json → Bool
  | .num s => (jsonNumVal s).isSome
  | .arr xs => pyWfList xs
  | .obj kvs => keysNodup kvs && pyWfKvs kvs
  | _ => true

def pyWfList : List Json → Bool
  | [] => true
  | x :: t => pyWf x && pyWfList t

def pyWfKvs : List (List Char × Json) → Bool
  | [] => true
  | (_, v) :: t => pyWf v && pyWfKvs t

end

/-- Insertion into the answer-lookup dict: Python dict semantics, the
position and key object of an existing Python-equal key are kept and its
value replaced. -/
def ansInsert (kvs : List (Json × Json)) (k v : Json) : List (Json × Json) :=
  if kvs.any (fun p => keyEq p.1 k) then
    kvs.map (fun p => if keyEq p.1 k then (p.1, v) else p)
  else kvs ++ [(k, v)]

/-- The `\x7bans["id"]: ans["answer"] for ans in answers\x7d` comprehension;
defined only for hashable ids, which the caller checks. -/
def ansDict (answers : List (Json × Json)) : List (Json × Json) :=
  answers.foldl (fun acc a => ansInsert acc a.1 a.2) []

/-- dict.get with Python None (modeled as JSON null) as default; keys are
compared with Python ==, so a NaN key is never found. -/
def ansGet (d : List (Json × Json)) (k : Json) : Json :=
  match d.find? (fun p => keyEq p.1 k) with
  | some p => p.2
  | none => Json.null

/-- Model of `submit_quiz` in `app/routes/quizzes.py` after the quiz is
found. The answer-lookup dict comprehension raises TypeError on an
unhashable answer id, and the .get lookup raises on an unhashable stored
question id; both raises surface as a 500 and are modeled as none, like
the ZeroDivisionError on a quiz with no questions. Each stored question
is marked by comparing the looked-up answer (None when missing) with
correctAnswer under Python ==, and the percentage is
round((correct/total)*100). -/
def submit_quiz (questions : List Question) (answers : List (Json × Json)) :
    Option SubmitResult :=
  if ¬ (answers.all (fun a => hashable a.1) = true) then none
  else if ¬ (questions.all (fun q => hashable q.qid) = true) then none
  else
    let lookup := ansDict answers
    let feedback := questions.map (fun q =>
      let ua := ansGet lookup q.qid
      { question_id := q.qid, question := q.question, user_answer := ua,
        correct_answer := q.correctAnswer,
        is_correct := pyEq ua q.correctAnswer,
        options := q.options : Feedback })
    let correct_count := (feedback.filter (fun f => f.is_correct)).length
    if questions.length = 0 then none
    else some
      { score := correct_count, total := questions.length,
        percentage := bankersRound (mkRat (correct_count * 100)
          questions.length),
        feedback := feedback }

theorem keyEq_comm (a b : Json) : keyEq a b = keyEq b a := by
  unfold keyEq
  rcases hva : keyView a with _ | x <;> rcases hvb : keyView b with _ | y
  · rfl
  · rfl
  · rfl
  · dsimp only
    by_cases h : x = y
    · subst h
      rfl
    · rw [beq_eq_false_iff_ne.mpr h, beq_eq_false_iff_ne.mpr (Ne.symm h)]

theorem keyEq_trans {a b c : Json} (hab : keyEq a b = true)
    (hbc : keyEq b c = true) : keyEq a c = true := by
  unfold keyEq at hab hbc ⊢
  rcases hva : keyView a with _ | x
  · rw [hva] at hab
    simp at hab
  rcases hvb : keyView b with _ | y
  · rw [hva, hvb] at hab
    simp at hab
  rcases hvc : keyView c with _ | z
  · rw [hvb, hvc] at hbc
    simp at hbc
  rw [hva, hvb] at hab
  rw [hvb, hvc] at hbc
  dsimp only at hab hbc
  rw [eq_of_beq hab, eq_of_beq hbc]
  simp

theorem keyEq_refl {a : Json} (h : (keyView a).isSome = true) :
    keyEq a a = true := by
  unfold keyEq
  rcases hv : keyView a with _ | x
  · rw [hv] at h
    simp at h
  · simp

theorem keyEq_null_iff (c : Json) : keyEq Json.null c = true ↔ c = Json.null := by
  constructor
  · intro h
    unfold keyEq at h
    cases c with
    | null => rfl
    | boolean b => simp [keyView] at h
    | num s =>
      rcases hv : jsonNumVal s with _ | v <;> simp [keyView, hv] at h
    | str s => simp [keyView] at h
    | arr xs => simp [keyView] at h
    | obj kvs => simp [keyView] at h
  · rintro rfl
    decide

theorem hashable_of_keyView {j : Json} (h : (keyView j).isSome = true) :
    hashable j = true := by
  cases j <;> first | rfl | simp [keyView] at h

theorem jsize_pos (x : Json) : 1 ≤ jsize x := by
  cases x <;> simp [jsize]

theorem jsizeList_mem_le {x : Json} : ∀ {xs : List Json}, x ∈ xs →
    jsize x ≤ jsizeList xs := by
  intro xs
  induction xs with
  | nil => intro h; simp at h
  | cons y t ih =>
    intro h
    rcases List.mem_cons.mp h with rfl | h
    · simp [jsizeList]
    · have := ih h
      simp only [jsizeList]
      omega

theorem jsizeKvs_mem_le {p : List Char × Json} :
    ∀ {kvs : List (List Char × Json)}, p ∈ kvs →
      jsize p.2 ≤ jsizeKvs kvs := by
  intro kvs
  induction kvs with
  | nil => intro h; simp at h
  | cons q t ih =>
    intro h
    obtain ⟨k1, v1⟩ := q
    rcases List.mem_cons.mp h with rfl | h
    · simp [jsizeKvs]
    · have := ih h
      simp only [jsizeKvs]
      omega

theorem pyWfList_mem : ∀ {xs : List Json}, pyWfList xs = true →
    ∀ x ∈ xs, pyWf x = true := by
  intro xs
  induction xs with
  | nil => intro _ x hx; simp at hx
  | cons y t ih =>
    intro h x hx
    simp only [pyWfList, Bool.and_eq_true] at h
    rcases List.mem_cons.mp hx with rfl | hx
    · exact h.1
    · exact ih h.2 x hx

theorem pyWfKvs_mem : ∀ {kvs : List (List Char × Json)},
    pyWfKvs kvs = true → ∀ p ∈ kvs, pyWf p.2 = true := by
  intro kvs
  induction kvs with
  | nil => intro _ p hp; simp at hp
  | cons q t ih =>
    intro h p hp
    obtain ⟨k1, v1⟩ := q
    simp only [pyWfKvs, Bool.and_eq_true] at h
    rcases List.mem_cons.mp hp with rfl | hp
    · exact h.1
    · exact ih h.2 p hp

theorem find?_keysNodup : ∀ {kvs : List (List Char × Json)},
    keysNodup kvs = true → ∀ {p}, p ∈ kvs →
      kvs.find? (fun q => q.1 == p.1) = some p := by
  intro kvs
  induction kvs with
  | nil => intro _ p hp; simp at hp
  | cons q t ih =>
    intro h p hp
    simp only [keysNodup, Bool.and_eq_true, Bool.not_eq_true'] at h
    rcases List.mem_cons.mp hp with rfl | hp
    · simp only [List.find?_cons, beq_self_eq_true, if_true]
    · have hne : (q.1 == p.1) = false := by
        cases hc : q.1 == p.1
        · rfl
        · exfalso
          have hq : q.1 = p.1 := by simpa using hc
          have : t.any (fun r => r.1 == q.1) = true :=
            List.any_eq_true.mpr ⟨p, hp, by simp [hq]⟩
          rw [h.1] at this
          exact Bool.noConfusion this
      simp only [List.find?_cons, hne, Bool.false_eq_true, if_false]
      exact ih h.2 hp

theorem zip_self_mem {p : Json × Json} : ∀ {xs : List Json},
    p ∈ xs.zip xs → p.1 = p.2 ∧ p.1 ∈ xs := by
  intro xs
  induction xs with
  | nil => intro hp; simp at hp
  | cons x t ih =>
    intro hp
    rw [List.zip_cons_cons] at hp
    rcases List.mem_cons.mp hp with he | hp
    · rw [he]
      exact ⟨rfl, by simp⟩
    · obtain ⟨h1, h2⟩ := ih hp
      exact ⟨h1, by simp [h2]⟩

theorem pyEqF_refl : ∀ f : Nat, ∀ x : Json, jsize x ≤ f → pyWf x = true →
    pyEqF f x x = true := by
  intro f
  induction f with
  | zero =>
    intro x hx _
    have := jsize_pos x
    omega
  | succ f ih =>
    intro x hx hwf
    cases x with
    | null => rfl
    | boolean b => cases b <;> rfl
    | str s =>
      show keyEq (Json.str s) (Json.str s) = true
      exact keyEq_refl (by simp [keyView])
    | num s =>
      show keyEq (Json.num s) (Json.num s) = true
      have hs : (jsonNumVal s).isSome = true := by simpa [pyWf] using hwf
      rcases hv : jsonNumVal s with _ | v
      · rw [hv] at hs
        simp at hs
      · exact keyEq_refl (by simp [keyView, hv])
    | arr xs =>
      have hfuel : jsizeList xs ≤ f := by
        have hx2 : jsize (Json.arr xs) = 1 + jsizeList xs := rfl
        omega
      have hwfl : pyWfList xs = true := by simpa [pyWf] using hwf
      show (xs.length == xs.length &&
        (xs.zip xs).all fun p => pyEqF f p.1 p.2) = true
      simp only [beq_self_eq_true, Bool.true_and]
      rw [List.all_eq_true]
      intro p hp
      obtain ⟨heq, hmem⟩ := zip_self_mem hp
      rw [← heq]
      exact ih p.1 (le_trans (jsizeList_mem_le hmem) hfuel)
        (pyWfList_mem hwfl p.1 hmem)
    | obj kvs =>
      have hfuel : jsizeKvs kvs ≤ f := by
        have hx2 : jsize (Json.obj kvs) = 1 + jsizeKvs kvs := rfl
        omega
      have hwf2 : keysNodup kvs = true ∧ pyWfKvs kvs = true := by
        simpa [pyWf, Bool.and_eq_true] using hwf
      show (kvs.length == kvs.length && kvs.all fun p =>
        match kvs.find? (fun q => q.1 == p.1) with
        | some q => pyEqF f p.2 q.2
        | none => false) = true
      simp only [beq_self_eq_true, Bool.true_and]
      rw [List.all_eq_true]
      intro p hp
      rw [find?_keysNodup hwf2.1 hp]
      exact ih p.2 (le_trans (jsizeKvs_mem_le hp) hfuel)
        (pyWfKvs_mem hwf2.2 p hp)

theorem pyEq_refl {x : Json} (h : pyWf x = true) : pyEq x x = true :=
  pyEqF_refl (jsize x) x (le_refl _) h

theorem pyEq_null_iff (c : Json) : pyEq Json.null c = true ↔ c = Json.null := by
  have h : pyEq Json.null c = keyEq Json.null c := rfl
  rw [h]
  exact keyEq_null_iff c

theorem find?_upd_pos {k0 k : Json} (hk : keyEq k0 k = true) (v : Json) :
    ∀ d : List (Json × Json), d.any (fun p => keyEq p.1 k0) = true →
      ∃ k1, (d.map (fun p => if keyEq p.1 k0 then (p.1, v) else p)).find?
        (fun p => keyEq p.1 k) = some (k1, v) := by
  intro d
  induction d with
  | nil => intro h; simp at h
  | cons p t ih =>
    intro h
    by_cases hp : keyEq p.1 k0 = true
    · have hpk := keyEq_trans hp hk
      refine ⟨p.1, ?_⟩
      rw [List.map_cons, if_pos hp]
      simp only [List.find?_cons, hpk, if_true]
    · have hpf : keyEq p.1 k0 = false := by simpa using hp
      have hpk : keyEq p.1 k = false := by
        cases hc : keyEq p.1 k
        · rfl
        · exfalso
          have hkk0 : keyEq k k0 = true := by rw [keyEq_comm]; exact hk
          have := keyEq_trans hc hkk0
          rw [hpf] at this
          exact Bool.noConfusion this
      have ht : t.any (fun p => keyEq p.1 k0) = true := by
        simp only [List.any_cons, hpf, Bool.false_or] at h
        exact h
      obtain ⟨k1, hk1⟩ := ih ht
      refine ⟨k1, ?_⟩
      rw [List.map_cons, if_neg hp]
      simp only [List.find?_cons, hpk, Bool.false_eq_true, if_false]
      exact hk1

theorem find?_upd_neg {k0 k : Json} (hk : ¬ keyEq k0 k = true) (v : Json) :
    ∀ d : List (Json × Json),
      (d.map (fun p => if keyEq p.1 k0 then (p.1, v) else p)).find?
        (fun p => keyEq p.1 k) = d.find? (fun p => keyEq p.1 k) := by
  intro d
  induction d with
  | nil => rfl
  | cons p t ih =>
    by_cases hp : keyEq p.1 k0 = true
    · have hpk : keyEq p.1 k = false := by
        cases hc : keyEq p.1 k
        · rfl
        · exfalso
          have hk0p : keyEq k0 p.1 = true := by rw [keyEq_comm]; exact hp
          exact hk (keyEq_trans hk0p hc)
      rw [List.map_cons, if_pos hp]
      simp only [List.find?_cons, hpk, Bool.false_eq_true, if_false]
      exact ih
    · rw [List.map_cons, if_neg hp]
      cases hc : keyEq p.1 k
      · simp only [List.find?_cons, hc, Bool.false_eq_true, if_false]
        exact ih
      · simp only [List.find?_cons, hc, if_true]

theorem ansGet_insert (d : List (Json × Json)) (k0 v k : Json) :
    ansGet (ansInsert d k0 v) k =
      if keyEq k0 k = true then v else ansGet d k := by
  by_cases hk : keyEq k0 k = true
  · rw [if_pos hk]
    unfold ansInsert
    by_cases hex : d.any (fun p => keyEq p.1 k0) = true
    · rw [if_pos hex]
      obtain ⟨k1, h1⟩ := find?_upd_pos hk v d hex
      unfold ansGet
      rw [h1]
    · rw [if_neg hex]
      unfold ansGet
      rw [List.find?_append]
      have hnone : d.find? (fun p => keyEq p.1 k) = none := by
        rw [List.find?_eq_none]
        intro x hx hpx
        have hkk0 : keyEq k k0 = true := by rw [keyEq_comm]; exact hk
        exact hex (List.any_eq_true.mpr ⟨x, hx, keyEq_trans hpx hkk0⟩)
      rw [hnone]
      have h2 : List.find? (fun p => keyEq p.1 k) [(k0, v)] = some (k0, v) := by
        simp only [List.find?_cons, hk, if_true]
      rw [h2]
      rfl
  · rw [if_neg hk]
    unfold ansInsert
    by_cases hex : d.any (fun p => keyEq p.1 k0) = true
    · rw [if_pos hex]
      unfold ansGet
      rw [find?_upd_neg hk v d]
    · rw [if_neg hex]
      unfold ansGet
      rw [List.find?_append]
      have h2 : List.find? (fun p => keyEq p.1 k) [(k0, v)] = none := by
        have hkf : keyEq k0 k = false := by simpa using hk
        simp only [List.find?_cons, hkf, Bool.false_eq_true, if_false,
          List.find?_nil]
      rw [h2, Option.or_none]

/-- The answer-lookup dict comprehension resolves Python-equal duplicate
ids by keeping the value of the last occurrence. -/
theorem ansDict_last (answers : List (Json × Json)) (k : Json) :
    ansGet (ansDict answers) k =
      ((answers.reverse.find? (fun a => keyEq a.1 k)).map Prod.snd).getD
        Json.null := by
  induction answers using List.reverseRecOn with
  | nil => rfl
  | append_singleton as a ih =>
    rw [show ansDict (as ++ [a]) = ansInsert (ansDict as) a.1 a.2 from by
      unfold ansDict
      rw [List.foldl_append]
      rfl]
    rw [ansGet_insert, List.reverse_append]
    by_cases hk : keyEq a.1 k = true
    · rw [if_pos hk, List.reverse_singleton, List.singleton_append]
      simp only [List.find?_cons, hk, if_true]
      simp
    · have hkf : keyEq a.1 k = false := by simpa using hk
      rw [if_neg hk, List.reverse_singleton, List.singleton_append]
      simp only [List.find?_cons, hkf, Bool.false_eq_true, if_false]
      exact ih

theorem bankersRound_intCast (n : Int) : bankersRound ((n : Int) : Rat) = n := by
  unfold bankersRound
  simp only [Rat.num_intCast, Rat.den_intCast, Int.fdiv_one, Nat.cast_one,
    mul_one, sub_self]
  norm_num

theorem find?_pair_unique :
    ∀ (l : List Question),
      List.Pairwise (fun a b => keyEq a.qid b.qid = false) l →
      (∀ q ∈ l, (keyView q.qid).isSome = true) →
      ∀ q ∈ l, (l.map (fun q => (q.qid, q.correctAnswer))).find?
        (fun a => keyEq a.1 q.qid) = some (q.qid, q.correctAnswer) := by
  intro l
  induction l with
  | nil => intro _ _ q hq; simp at hq
  | cons p t ih =>
    intro hpw hkv q hq
    have hpw2 := List.pairwise_cons.mp hpw
    rcases List.mem_cons.mp hq with rfl | hq
    · have hr : keyEq q.qid q.qid = true := keyEq_refl (hkv q (by simp))
      rw [List.map_cons]
      simp only [List.find?_cons, hr, if_true]
    · have hne : keyEq p.qid q.qid = false := hpw2.1 q hq
      rw [List.map_cons]
      simp only [List.find?_cons, hne, Bool.false_eq_true, if_false]
      exact ih hpw2.2 (fun r hr => hkv r (by simp [hr])) q hq

/-- C3 (counterexample): a question whose stored correctAnswer is null
counts an entirely missing answer as correct (dict.get returns None and
None == None in Python), so the empty answer set scores 1/1 with
percentage 100; a question whose correctAnswer is the non-standard JSON
float NaN scores 0 even when the submission echoes that NaN back verbatim
(nan != nan in Python); and a quiz with zero questions makes the handler
raise ZeroDivisionError (none, surfaced as a 500). -/
theorem c3_counterexample :
    (submit_quiz [⟨Json.num ['1'], Json.str ['q'], Json.arr [], Json.null⟩]
        []).map (fun r => (r.score, r.percentage)) = some (1, 100) ∧
    (submit_quiz [⟨Json.num ['1'], Json.str ['q'], Json.arr [],
        Json.num ['N', 'a', 'N']⟩]
        [(Json.num ['1'], Json.num ['N', 'a', 'N'])]).map
        (fun r => (r.score, r.total)) = some (0, 1) ∧
    submit_quiz [] [] = none :=
  ⟨by decide, by decide, by decide⟩

/-- C3 (amended): for a stored quiz with at least one question, hashable,
NaN-free and pairwise Python-distinct question ids, and correctAnswers
that are neither null nor contain NaN, submitting every question's
correct answer yields score = total = N and percentage 100, and
submitting the empty answer set yields score 0 and percentage 0. -/
theorem c3_amended (questions : List Question) (hne : questions ≠ [])
    (hkeys : ∀ q ∈ questions, (keyView q.qid).isSome = true)
    (hdist : List.Pairwise (fun a b => keyEq a.qid b.qid = false) questions)
    (hnn : ∀ q ∈ questions, q.correctAnswer ≠ Json.null ∧
      pyWf q.correctAnswer = true) :
    (∃ res, submit_quiz questions
        (questions.map (fun q => (q.qid, q.correctAnswer))) = some res ∧
      res.score = questions.length ∧ res.total = questions.length ∧
      res.percentage = 100) ∧
    (∃ res, submit_quiz questions [] = some res ∧ res.score = 0 ∧
      res.percentage = 0) := by
  have hlen : ¬ questions.length = 0 := fun h => hne (List.length_eq_zero.mp h)
  have hqh : questions.all (fun q => hashable q.qid) = true := by
    rw [List.all_eq_true]
    intro q hq
    exact hashable_of_keyView (hkeys q hq)
  constructor
  · have hah : (questions.map (fun q => (q.qid, q.correctAnswer))).all
        (fun a => hashable a.1) = true := by
      rw [List.all_eq_true]
      intro a ha
      rcases List.mem_map.mp ha with ⟨q, hq, rfl⟩
      exact hashable_of_keyView (hkeys q hq)
    simp only [submit_quiz]
    rw [if_neg (not_not_intro hah), if_neg (not_not_intro hqh), if_neg hlen]
    have hlook : ∀ q ∈ questions,
        ansGet (ansDict (questions.map (fun q => (q.qid, q.correctAnswer))))
          q.qid = q.correctAnswer := by
      intro q hq
      have hrev : List.Pairwise (fun a b => keyEq a.qid b.qid = false)
          questions.reverse := by
        rw [List.pairwise_reverse]
        exact hdist.imp (fun h => by rw [keyEq_comm]; exact h)
      rw [ansDict_last, ← List.map_reverse,
        find?_pair_unique questions.reverse hrev
          (fun r hr => hkeys r (List.mem_reverse.mp hr))
          q (List.mem_reverse.mpr hq)]
      simp
    have hall : ∀ f ∈ questions.map (fun q =>
        { question_id := q.qid, question := q.question,
          user_answer := ansGet (ansDict (questions.map
            (fun q => (q.qid, q.correctAnswer)))) q.qid,
          correct_answer := q.correctAnswer,
          is_correct := pyEq (ansGet (ansDict (questions.map
            (fun q => (q.qid, q.correctAnswer)))) q.qid) q.correctAnswer,
          options := q.options : Feedback }), f.is_correct = true := by
      intro f hf
      rcases List.mem_map.mp hf with ⟨q, hq, rfl⟩
      show pyEq (ansGet (ansDict (questions.map
        (fun q => (q.qid, q.correctAnswer)))) q.qid) q.correctAnswer = true
      rw [hlook q hq]
      exact pyEq_refl (hnn q hq).2
    have hsc : (List.filter (fun f => f.is_correct)
        (questions.map (fun q =>
          { question_id := q.qid, question := q.question,
            user_answer := ansGet (ansDict (questions.map
              (fun q => (q.qid, q.correctAnswer)))) q.qid,
            correct_answer := q.correctAnswer,
            is_correct := pyEq (ansGet (ansDict (questions.map
              (fun q => (q.qid, q.correctAnswer)))) q.qid) q.correctAnswer,
            options := q.options : Feedback }))).length =
        questions.length := by
      rw [List.filter_eq_self.mpr hall, List.length_map]
    refine ⟨_, rfl, hsc, rfl, ?_⟩
    rw [hsc]
    have hcast : mkRat ((questions.length : Nat) * 100 : Int)
        questions.length = ((100 : Int) : Rat) := by
      rw [Rat.mkRat_eq_div]
      have hN : ((questions.length : Nat) : Rat) ≠ 0 := Nat.cast_ne_zero.mpr hlen
      push_cast
      field_simp
    rw [hcast, bankersRound_intCast]
  · simp only [submit_quiz]
    have hah0 : ([] : List (Json × Json)).all (fun a => hashable a.1) = true :=
      rfl
    rw [if_neg (not_not_intro hah0), if_neg (not_not_intro hqh), if_neg hlen]
    have hnone : ∀ f ∈ questions.map (fun q =>
        { question_id := q.qid, question := q.question,
          user_answer := ansGet (ansDict []) q.qid,
          correct_answer := q.correctAnswer,
          is_correct := pyEq (ansGet (ansDict []) q.qid) q.correctAnswer,
          options := q.options : Feedback }), ¬ f.is_correct = true := by
      intro f hf
      rcases List.mem_map.mp hf with ⟨q, hq, rfl⟩
      show ¬ pyEq (ansGet (ansDict []) q.qid) q.correctAnswer = true
      intro hb
      have hb2 : pyEq Json.null q.correctAnswer = true := hb
      exact (hnn q hq).1 ((pyEq_null_iff q.correctAnswer).mp hb2)
    have hsc : (List.filter (fun f => f.is_correct)
        (questions.map (fun q =>
          { question_id := q.qid, question := q.question,
            user_answer := ansGet (ansDict []) q.qid,
            correct_answer := q.correctAnswer,
            is_correct := pyEq (ansGet (ansDict []) q.qid) q.correctAnswer,
            options := q.options : Feedback }))).length = 0 := by
      rw [List.filter_eq_nil.mpr hnone]
      rfl
    refine ⟨_, rfl, hsc, ?_⟩
    rw [hsc]
    have hcast : mkRat (((0 : Nat) : Int) * 100) questions.length =
        ((0 : Int) : Rat) := by
      rw [Rat.mkRat_eq_div]
      push_cast
      simp
    rw [hcast, bankersRound_intCast]

theorem c3_amended_witness :
    (∃ res, submit_quiz
        [⟨Json.num ['1'], Json.str ['q'], Json.arr [], Json.str ['a']⟩]
        (([⟨Json.num ['1'], Json.str ['q'], Json.arr [], Json.str ['a']⟩] :
            List Question).map
          (fun q => (q.qid, q.correctAnswer))) = some res ∧
      res.score = 1 ∧ res.total = 1 ∧ res.percentage = 100) ∧
    (∃ res, submit_quiz
        [⟨Json.num ['1'], Json.str ['q'], Json.arr [], Json.str ['a']⟩] [] =
          some res ∧ res.score = 0 ∧ res.percentage = 0) :=
  c3_amended [⟨Json.num ['1'], Json.str ['q'], Json.arr [],
    Json.str ['a']⟩] (by decide) (by decide) (by simp) (by decide)

/-! ## create_quiz -/

/-- The fence stripping in `create_quiz` (`app/utils/quizzes_utils.py`):
startswith/endswith slicing, then a final strip. -/
def stripFences (t0 : List Char) : List Char :=
  let t := pyStrip t0
  let t1 :=
    if fenceJson.isPrefixOf t then t.drop 7
    else if fence3.isPrefixOf t then t.drop 3
    else t
  let t2 := if fence3.isSuffixOf t1 then t1.take (t1.length - 3) else t1
  pyStrip t2

/-- The hardcoded fallback quiz of `create_quiz`. -/
def fallbackQuiz (topic difficulty : List Char) (n : Nat) : Json :=
  Json.obj
    [(strL "topic", Json.str topic),
     (strL "difficulty", Json.str difficulty),
     (strL "questions", Json.arr ((List.range n).map (fun i =>
        Json.obj
          [(strL "id", Json.num (Nat.toDigits 10 (i + 1))),
           (strL "question", Json.str (strL "Sample question " ++
             Nat.toDigits 10 (i + 1) ++ strL " for " ++ topic ++ ['?'])),
           (strL "options", Json.arr
             [Json.str (strL "Option A " ++ Nat.toDigits 10 (i + 1)),
              Json.str (strL "Option B " ++ Nat.toDigits 10 (i + 1)),
              Json.str (strL "Option C " ++ Nat.toDigits 10 (i + 1)),
              Json.str (strL "Option D " ++ Nat.toDigits 10 (i + 1))]),
           (strL "correctAnswer", Json.str (strL "Option A " ++
             Nat.toDigits 10 (i + 1)))])))]

/-- Python len() over a JSON value; none models the TypeError raised on
numbers, booleans and null (caught by the surrounding try). -/
def pyLen : Json → Option Nat
  | Json.arr xs => some xs.length
  | Json.str s => some s.length
  | Json.obj kvs => some kvs.length
  | _ => none

/-- The basic validation block of `create_quiz`: a dict with the three
keys whose questions entry has length equal to the requested count.
Nothing else — neither the topic value, the per-question shape, nor the
options are checked. -/
def isValidQuiz (qd : Json) (n : Nat) : Bool :=
  match qd with
  | Json.obj kvs =>
    kvs.any (fun p => p.1 == strL "topic") &&
    kvs.any (fun p => p.1 == strL "difficulty") &&
    kvs.any (fun p => p.1 == strL "questions") &&
    (match kvs.find? (fun p => p.1 == strL "questions") with
     | some p =>
       match pyLen p.2 with
       | some m => m == n
       | none => false
     | none => false)
  | _ => false

/-- Model of `create_quiz` applied to the AI response text (none when the
AI call itself raised): fence-strip and parse the response, return it if
the basic validation passes, otherwise return the hardcoded fallback. -/
def create_quiz (topic difficulty : List Char) (n : Nat)
    (ai : Option (List Char)) : Json :=
  match ai with
  | none => fallbackQuiz topic difficulty n
  | some resp =>
    match jsonLoads (stripFences resp) with
    | none => fallbackQuiz topic difficulty n
    | some qd =>
      if isValidQuiz qd n then qd else fallbackQuiz topic difficulty n

/-- C4 counterexample: an AI response that is a well-formed dict with the
three keys and five entries under questions passes `create_quiz`'s
validation unchanged, even though its topic is not "Photosynthesis", its
difficulty is not "easy", and its questions are bare numbers with no
options at all — the claimed per-question guarantees do not hold on the
AI path. -/
theorem c4_counterexample :
    create_quiz (strL "Photosynthesis") (strL "easy") 5
      (some (strL "\x7b\"topic\": \"Other\", \"difficulty\": \"hard\", \"questions\": [1, 2, 3, 4, 5]\x7d")) =
    Json.obj [(strL "topic", Json.str (strL "Other")),
      (strL "difficulty", Json.str (strL "hard")),
      (strL "questions", Json.arr [Json.num ['1'], Json.num ['2'],
        Json.num ['3'], Json.num ['4'], Json.num ['5']])] ∧
    lookupKey (create_quiz (strL "Photosynthesis") (strL "easy") 5
      (some (strL "\x7b\"topic\": \"Other\", \"difficulty\": \"hard\", \"questions\": [1, 2, 3, 4, 5]\x7d")))
      (strL "topic") ≠ some (Json.str (strL "Photosynthesis")) :=
  ⟨by decide, by decide⟩

/-- C4 (amended): the hardcoded fallback does satisfy the claimed shape
for every topic, difficulty and count — requested topic and difficulty,
exactly n questions, each with exactly 4 options and a correctAnswer
among them — and `create_quiz` always returns either that fallback or an
AI value which passed only the basic validation (dict with the three
keys and n entries under questions). -/
theorem c4_amended (topic difficulty : List Char) (n : Nat)
    (ai : Option (List Char)) :
    lookupKey (fallbackQuiz topic difficulty n) (strL "topic") =
      some (Json.str topic) ∧
    lookupKey (fallbackQuiz topic difficulty n) (strL "difficulty") =
      some (Json.str difficulty) ∧
    (∃ qs, lookupKey (fallbackQuiz topic difficulty n) (strL "questions") =
        some (Json.arr qs) ∧ qs.length = n ∧
      ∀ q ∈ qs, ∃ opts ca, lookupKey q (strL "options") = some (Json.arr opts) ∧
        opts.length = 4 ∧ lookupKey q (strL "correctAnswer") = some ca ∧
        ca ∈ opts) ∧
    (create_quiz topic difficulty n ai = fallbackQuiz topic difficulty n ∨
      ∃ v, create_quiz topic difficulty n ai = v ∧ isValidQuiz v n = true) := by
  refine ⟨rfl, rfl, ?_, ?_⟩
  · refine ⟨_, rfl, ?_, ?_⟩
    · rw [List.length_map, List.length_range]
    · intro q hq
      rcases List.mem_map.mp hq with ⟨i, _, rfl⟩
      exact ⟨_, _, rfl, rfl, rfl, by simp⟩
  · match ai with
    | none => exact Or.inl rfl
    | some resp =>
      rcases h : jsonLoads (stripFences resp) with _ | qd
      · refine Or.inl ?_
        simp only [create_quiz, h]
      · by_cases hv : isValidQuiz qd n = true
        · refine Or.inr ⟨qd, ?_, hv⟩
          simp only [create_quiz, h, hv, if_true]
        · refine Or.inl ?_
          simp only [create_quiz, h]
          rw [if_neg hv]

/-! ## Prompt assembly with conversation history -/

/-- One conversation entry as read by the prompt builder. -/
structure ChatMsg where
  role : List Char
  content : List Char
deriving DecidableEq

/-- Python l[-n:]. -/
def takeLast (n : Nat) (l : List ChatMsg) : List ChatMsg :=
  l.drop (l.length - n)

/-- The role label used when rendering one history line. -/
def roleName (r : List Char) : List Char :=
  if r = strL "user" then strL "Student" else strL "Tutor"

def enumerateFrom (i : Nat) : List ChatMsg → List (Nat × ChatMsg)
  | [] => []
  | m :: t => (i, m) :: enumerateFrom (i + 1) t

/-- The rendered history lines of `generate_ai_response` in
`app/utils/ai_utils.py`: enumerate the last 10 messages from 1 and keep a
numbered line for each message whose stripped content is non-empty. -/
def historyLines (msgs : List ChatMsg) : List (List Char) :=
  (enumerateFrom 1 (takeLast 10 msgs)).filterMap (fun p =>
    if pyStrip p.2.content = [] then none
    else some (Nat.toDigits 10 p.1 ++ strL ". " ++ roleName p.2.role ++
      strL ": " ++ pyStrip p.2.content ++ ['\n']))

/-- The history section of the prompt, present only for a non-empty
history. -/
def historyBlock (msgs : List ChatMsg) : List Char :=
  if msgs = [] then []
  else
    strL "Previous Conversation (Last 10 messages for context):\n" ++
      (historyLines msgs).flatten ++
      strL "\nImportant: Reference this conversation history when relevant. Build upon previous topics discussed.\n\n"

/-- The full prompt assembled by `generate_ai_response`: system section,
history section, the dumped non-history context if any, and the current
question. contextDump stands for the json.dumps output on the remaining
context entries. -/
def generate_ai_response_prompt (system_prompt prompt : List Char)
    (history : List ChatMsg) (contextDump : Option (List Char)) : List Char :=
  (if system_prompt ≠ [] then strL "System: " ++ system_prompt ++ strL "\n\n"
   else []) ++
  historyBlock history ++
  (match contextDump with
   | some d => strL "Additional Context: " ++ d ++ strL "\n\n"
   | none => []) ++
  strL "Current Student Question: " ++ prompt ++ strL "\n\nTutor Response:"

theorem takeLast_takeLast (l : List ChatMsg) :
    takeLast 10 (takeLast 10 l) = takeLast 10 l := by
  unfold takeLast
  rw [List.length_drop]
  have h : l.length - (l.length - 10) - 10 = 0 := by omega
  rw [h, List.drop_zero]

theorem enumerateFrom_length (i : Nat) (l : List ChatMsg) :
    (enumerateFrom i l).length = l.length := by
  induction l generalizing i with
  | nil => rfl
  | cons m t ih => simp [enumerateFrom, ih]

/-- C7: the rendered history block never contains more than 10 lines, and
the assembled prompt depends on the history only through its last 10
entries; assembly is a total function of its inputs (pure string
concatenation, no failure path). -/
theorem c7_history_capped (system_prompt prompt : List Char)
    (history : List ChatMsg) (contextDump : Option (List Char)) :
    (historyLines history).length ≤ 10 ∧
    generate_ai_response_prompt system_prompt prompt history contextDump =
      generate_ai_response_prompt system_prompt prompt (takeLast 10 history)
        contextDump := by
  constructor
  · unfold historyLines
    calc ((enumerateFrom 1 (takeLast 10 history)).filterMap _).length
        ≤ (enumerateFrom 1 (takeLast 10 history)).length :=
          List.length_filterMap_le _ _
      _ = (takeLast 10 history).length := enumerateFrom_length 1 _
      _ ≤ 10 := by
          unfold takeLast
          rw [List.length_drop]
          omega
  · unfold generate_ai_response_prompt
    have hlines : historyLines (takeLast 10 history) = historyLines history := by
      unfold historyLines
      rw [takeLast_takeLast]
    have hblock : historyBlock (takeLast 10 history) = historyBlock history := by
      unfold historyBlock
      rcases hh : history with _ | ⟨m, t⟩
      · rfl
      · have h1 : takeLast 10 (m :: t) ≠ [] := by
          unfold takeLast
          intro he
          have := congrArg List.length he
          rw [List.length_drop] at this
          simp at this
          omega
        rw [if_neg h1, if_neg (by simp), ← hh, hlines]
    rw [hblock]

/-! ## The quiz-generation endpoint validation -/

/-- What an observer sees of a /api/quizzes/generate response: the HTTP
status and whether quiz generation was invoked. -/
structure GenResp where
  status : Nat
  invoked : Bool
deriving DecidableEq

/-- dict.get with a default. -/
def getKeyD (d : List (List Char × Json)) (k : List Char) (dv : Json) : Json :=
  match d.find? (fun p => p.1 == k) with
  | some p => p.2
  | none => dv

/-- Python str.lower (ASCII case folding). -/
def pyLower (s : List Char) : List Char := s.map Char.toLower

/-- Python isinstance(x, int) on a JSON-parsed value together with its
integer value: true for integer literals and for booleans (bool is a
subclass of int), false for floats and everything else. -/
def isIntJson : Json → Option Int
  | Json.num s =>
    if s.all (fun c => c ≠ '.' ∧ c ≠ 'e' ∧ c ≠ 'E') then
      match s with
      | '-' :: t => some (-(digitsVal t : Int))
      | t => some ((digitsVal t : Int))
    else none
  | Json.boolean b => some (if b then 1 else 0)
  | _ => none

/-- Model of the `generate_quiz` handler in `app/routes/quizzes.py`:
status 400 on missing body or failed validation, 500 when .strip() or
.lower() raises on a non-string topic or difficulty, 200 with generation
invoked otherwise. -/
def generate_quiz (data : Option (List (List Char × Json))) : GenResp :=
  match data with
  | none => ⟨400, false⟩
  | some d =>
    if d.isEmpty then ⟨400, false⟩
    else
      match getKeyD d (strL "topic") (Json.str []) with
      | Json.str t =>
        match getKeyD d (strL "difficulty") (Json.str (strL "medium")) with
        | Json.str diff0 =>
          if pyStrip t = [] then ⟨400, false⟩
          else if ¬ (pyLower diff0 = strL "easy" ∨ pyLower diff0 = strL "medium" ∨
              pyLower diff0 = strL "hard") then ⟨400, false⟩
          else
            match isIntJson (getKeyD d (strL "numberOfQuestions")
                (Json.num ['1', '0'])) with
            | some n => if n < 5 ∨ 20 < n then ⟨400, false⟩ else ⟨200, true⟩
            | none => ⟨400, false⟩
        | _ => ⟨500, false⟩
      | _ => ⟨500, false⟩

/-- C8 counterexample: a body whose difficulty is the number 3 — a value
outside \x7beasy, medium, hard\x7d — does not get the claimed 4xx
validation response: .lower() raises AttributeError on the int and the
handler answers 500. Generation is indeed not invoked. -/
theorem c8_counterexample :
    generate_quiz (some [(strL "topic", Json.str (strL "Math")),
      (strL "difficulty", Json.num ['3'])]) = GenResp.mk 500 false ∧
    (generate_quiz (some [(strL "topic", Json.str (strL "Math")),
      (strL "difficulty", Json.num ['3'])])).status ≠ 400 :=
  ⟨by decide, by decide⟩

/-- C8 (amended): the handler never invokes generation on a body that
fails validation — every reply is either a 400 or 500 with generation
not invoked, or a 200 where generation was invoked and the body carried
a string topic that is non-empty after stripping, a string difficulty
whose lowering is easy, medium or hard, and an integer question count
between 5 and 20; non-string topic or difficulty values produce a 500,
not the claimed 4xx. -/
theorem c8_amended (data : Option (List (List Char × Json))) :
    ((generate_quiz data).invoked = false ∧
      ((generate_quiz data).status = 400 ∨ (generate_quiz data).status = 500)) ∨
    ((generate_quiz data).invoked = true ∧ (generate_quiz data).status = 200 ∧
      ∃ d t diff n, data = some d ∧
        getKeyD d (strL "topic") (Json.str []) = Json.str t ∧ pyStrip t ≠ [] ∧
        getKeyD d (strL "difficulty") (Json.str (strL "medium")) =
          Json.str diff ∧
        (pyLower diff = strL "easy" ∨ pyLower diff = strL "medium" ∨
          pyLower diff = strL "hard") ∧
        isIntJson (getKeyD d (strL "numberOfQuestions") (Json.num ['1', '0'])) =
          some n ∧ 5 ≤ n ∧ n ≤ 20) := by
  match data with
  | none => exact Or.inl ⟨rfl, Or.inl rfl⟩
  | some d =>
    by_cases hemp : d.isEmpty = true
    · left
      simp only [generate_quiz, hemp, if_true]
      simp
    · rcases ht : getKeyD d (strL "topic") (Json.str []) with _ | _ | _ | t | _ | _
      all_goals simp only [generate_quiz, hemp, Bool.false_eq_true, if_false, ht]
      · left; simp
      · left; simp
      · left; simp
      · rcases hdf : getKeyD d (strL "difficulty") (Json.str (strL "medium"))
          with _ | _ | _ | diff | _ | _
        all_goals simp only [hdf]
        · left; simp
        · left; simp
        · left; simp
        · by_cases htop : pyStrip t = []
          · rw [if_pos htop]
            left; simp
          · rw [if_neg htop]
            by_cases hdiff : pyLower diff = strL "easy" ∨
                pyLower diff = strL "medium" ∨ pyLower diff = strL "hard"
            · rw [if_neg (not_not_intro hdiff)]
              rcases hn : isIntJson (getKeyD d (strL "numberOfQuestions")
                  (Json.num ['1', '0'])) with _ | n
              · left; simp
              · dsimp only
                by_cases hrange : n < 5 ∨ 20 < n
                · rw [if_pos hrange]
                  left; simp
                · rw [if_neg hrange]
                  push_neg at hrange
                  exact Or.inr ⟨rfl, rfl,
                    d, t, diff, n, rfl, ht, htop, hdf, hdiff, hn,
                    hrange.1, hrange.2⟩
            · rw [if_pos hdiff]
              left; simp
        · left; simp
        · left; simp
      · left; simp
      · left; simp

/-! ## Roadmap fetch/delete by id -/

/-- A stored roadmap document as the route reads it: its id, its owner
email and the rest of the document. -/
structure RoadmapDoc where
  rid : List Char
  user_email : List Char
  body : Json
deriving DecidableEq

inductive ReqMethod where
  | get
  | delete
deriving DecidableEq

/-- Observable outcome of /api/roadmap/<roadmap_id>. -/
inductive RoadResp where
  | badRequest
  | notFound
  | ok (r : RoadmapDoc)
  | deleted
deriving DecidableEq

/-- Model of `get_roadmap_by_id` in `app/routes/roadmap.py` on the
database path: 400 on a missing or empty user_email (or empty id), then
find_one on the compound \x7bid, user_email\x7d filter — 404 when nothing
matches — and for DELETE a delete_one with the same filter, which removes
the first matching document. Returns the response and the store after the
request. -/
def get_roadmap_by_id (method : ReqMethod) (roadmap_id : List Char)
    (user_email : Option (List Char)) (store : List RoadmapDoc) :
    RoadResp × List RoadmapDoc :=
  if roadmap_id = [] then (RoadResp.badRequest, store)
  else
    match user_email with
    | none => (RoadResp.badRequest, store)
    | some em =>
      if em = [] then (RoadResp.badRequest, store)
      else
        match store.find? (fun r => r.rid == roadmap_id && r.user_email == em)
        with
        | none => (RoadResp.notFound, store)
        | some r =>
          match method with
          | ReqMethod.get => (RoadResp.ok r, store)
          | ReqMethod.delete =>
            (RoadResp.deleted,
             store.eraseP (fun x => x.rid == roadmap_id && x.user_email == em))

/-- C10: with a well-formed request, a GET or DELETE naming no stored
roadmap with that id owned by the requesting email answers the 404
not-found response and leaves the store unchanged; a document is returned
only if it is in the store with the requested id and owner, leaving the
store unchanged, and a delete happens only when such a document exists,
removing exactly the first match of the compound filter. -/
theorem c10_owner_scoped (method : ReqMethod) (rid em : List Char)
    (store : List RoadmapDoc) (hid : rid ≠ []) (hem : em ≠ []) :
    ((∀ r ∈ store, ¬(r.rid = rid ∧ r.user_email = em)) →
      get_roadmap_by_id method rid (some em) store =
        (RoadResp.notFound, store)) ∧
    (∀ r store2, get_roadmap_by_id method rid (some em) store =
        (RoadResp.ok r, store2) →
      r ∈ store ∧ r.rid = rid ∧ r.user_email = em ∧ store2 = store) ∧
    (∀ store2, get_roadmap_by_id method rid (some em) store =
        (RoadResp.deleted, store2) →
      (∃ r ∈ store, r.rid = rid ∧ r.user_email = em) ∧
        store2 = store.eraseP
          (fun x => x.rid == rid && x.user_email == em)) := by
  unfold get_roadmap_by_id
  rw [if_neg hid]
  simp only
  rw [if_neg hem]
  rcases hf : store.find? (fun r => r.rid == rid && r.user_email == em)
    with _ | r
  · rw [hf]
    refine ⟨fun _ => rfl, ?_, ?_⟩
    · intro r store2 h
      simp at h
    · intro store2 h
      simp at h
  · rw [hf]
    have hmem : r ∈ store := List.mem_of_find?_eq_some hf
    have hpred : (r.rid == rid && r.user_email == em) = true :=
      @List.find?_some RoadmapDoc
        (fun x => x.rid == rid && x.user_email == em) r store hf
    have hprops : r.rid = rid ∧ r.user_email = em := by
      simp only [Bool.and_eq_true, beq_iff_eq] at hpred
      exact hpred
    dsimp only
    refine ⟨?_, ?_, ?_⟩
    · intro hno
      exact absurd hprops (hno r hmem)
    · intro r2 store2 h
      cases method
      · simp only [Prod.mk.injEq, RoadResp.ok.injEq] at h
        exact ⟨h.1 ▸ hmem, h.1 ▸ hprops.1, h.1 ▸ hprops.2, h.2.symm⟩
      · simp at h
    · intro store2 h
      cases method
      · simp at h
      · simp only [Prod.mk.injEq] at h
        exact ⟨⟨r, hmem, hprops.1, hprops.2⟩, h.2.symm⟩

theorem c10_witness :
    ((∀ r ∈ [RoadmapDoc.mk ['r'] ['x'] Json.null], ¬(r.rid = ['r'] ∧
        r.user_email = ['e'])) →
      get_roadmap_by_id ReqMethod.delete ['r'] (some ['e'])
        [RoadmapDoc.mk ['r'] ['x'] Json.null] =
        (RoadResp.notFound, [RoadmapDoc.mk ['r'] ['x'] Json.null])) ∧
    (∀ r store2, get_roadmap_by_id ReqMethod.delete ['r'] (some ['e'])
        [RoadmapDoc.mk ['r'] ['x'] Json.null] = (RoadResp.ok r, store2) →
      r ∈ [RoadmapDoc.mk ['r'] ['x'] Json.null] ∧ r.rid = ['r'] ∧
        r.user_email = ['e'] ∧ store2 = [RoadmapDoc.mk ['r'] ['x'] Json.null]) ∧
    (∀ store2, get_roadmap_by_id ReqMethod.delete ['r'] (some ['e'])
        [RoadmapDoc.mk ['r'] ['x'] Json.null] = (RoadResp.deleted, store2) →
      (∃ r ∈ [RoadmapDoc.mk ['r'] ['x'] Json.null], r.rid = ['r'] ∧
        r.user_email = ['e']) ∧
        store2 = [RoadmapDoc.mk ['r'] ['x'] Json.null].eraseP
          (fun x => x.rid == ['r'] && x.user_email == ['e'])) :=
  c10_owner_scoped ReqMethod.delete ['r'] ['e']
    [RoadmapDoc.mk ['r'] ['x'] Json.null] (by decide) (by decide)
